import Mathlib

/-!
Shallow embedding of the DES variant in `des/des_core.py` and of the
mode-of-operation layer in `des/modes.py`, followed by theorems settling the
specification's claims about them.

Bytes are modelled as `Nat` (with explicit `< 256` bounds where the value
range matters), byte strings as `List Nat`, and the Python bit strings the
source manipulates (`'0101…'`) as `List Bool` with the most significant bit
first.  `int(s, 2)` is `bitsToNat`, and fixed-width binary formatting
`f'{n:0wb}'` is `natToBits w n`; the two renderings agree with Python at every
call site of the source, where the formatted value is always below `2 ^ w`.
Operations that can raise in Python return `Except CryptoError _`.
-/

/-- `int(s, 2)` on a most-significant-bit-first bit string. -/
def bitsToNat (s : List Bool) : Nat :=
  s.foldl (fun acc b => 2 * acc + (if b then 1 else 0)) 0

/-- `f'{n:0wb}'` for `n < 2 ^ w`: the low `w` bits of `n`, msb first. -/
def natToBits (width n : Nat) : List Bool :=
  (List.range width).reverse.map n.testBit

theorem bitsToNat_from (s : List Bool) (a : Nat) :
    s.foldl (fun acc b => 2 * acc + (if b then 1 else 0)) a
      = a * 2 ^ s.length + bitsToNat s := by
  induction s generalizing a with
  | nil => simp [bitsToNat]
  | cons b t ih =>
    simp only [List.foldl_cons, List.length_cons, bitsToNat]
    rw [ih, ih]
    ring

theorem bitsToNat_cons (b : Bool) (t : List Bool) :
    bitsToNat (b :: t) = (if b then 1 else 0) * 2 ^ t.length + bitsToNat t := by
  have h := bitsToNat_from t (2 * 0 + (if b then 1 else 0))
  simpa [bitsToNat] using h

theorem bitsToNat_lt (s : List Bool) : bitsToNat s < 2 ^ s.length := by
  induction s with
  | nil => simp [bitsToNat]
  | cons b t ih =>
    rw [bitsToNat_cons]
    have h2 : 2 ^ (b :: t).length = 2 * 2 ^ t.length := by
      rw [List.length_cons, pow_succ]; ring
    simp only [List.length_cons] at h2 ⊢
    cases b <;> simp <;> omega

theorem natToBits_succ (w n : Nat) :
    natToBits (w + 1) n = n.testBit w :: natToBits w n := by
  simp [natToBits, List.range_succ]

theorem natToBits_length (w n : Nat) : (natToBits w n).length = w := by
  simp [natToBits]

theorem natToBits_mod (w n : Nat) : natToBits w (n % 2 ^ w) = natToBits w n := by
  unfold natToBits
  apply List.map_congr_left
  intro j hj
  have hjw : j < w := List.mem_range.mp (List.mem_reverse.mp hj)
  simp [Nat.testBit_mod_two_pow, hjw]

theorem natToBits_bitsToNat (s : List Bool) :
    natToBits s.length (bitsToNat s) = s := by
  induction s with
  | nil => rfl
  | cons b t ih =>
    have hM := bitsToNat_lt t
    have hkey : ∀ j, Nat.testBit (2 ^ t.length * (if b then 1 else 0) + bitsToNat t) j
        = if j < t.length then Nat.testBit (bitsToNat t) j
          else Nat.testBit (if b then 1 else 0) (j - t.length) :=
      fun j => Nat.testBit_mul_pow_two_add _ hM j
    have hN : (if b then 1 else 0) * 2 ^ t.length + bitsToNat t
        = 2 ^ t.length * (if b then 1 else 0) + bitsToNat t := by ring
    rw [List.length_cons, natToBits_succ, bitsToNat_cons, hN]
    have h1 : Nat.testBit (2 ^ t.length * (if b then 1 else 0) + bitsToNat t) t.length
        = b := by
      rw [hkey]
      simp only [lt_irrefl, if_false, Nat.sub_self]
      cases b <;> simp
    have h2 : natToBits t.length (2 ^ t.length * (if b then 1 else 0) + bitsToNat t)
        = t := by
      have hcongr : natToBits t.length (2 ^ t.length * (if b then 1 else 0) + bitsToNat t)
          = natToBits t.length (bitsToNat t) := by
        unfold natToBits
        apply List.map_congr_left
        intro j hj
        have hjw : j < t.length := List.mem_range.mp (List.mem_reverse.mp hj)
        rw [hkey]
        simp [hjw]
      rw [hcongr, ih]
    rw [h1, h2]

theorem bitsToNat_natToBits (w : Nat) : ∀ n : Nat, n < 2 ^ w →
    bitsToNat (natToBits w n) = n := by
  induction w with
  | zero =>
    intro n h
    have : n = 0 := by simpa using h
    simp [this, natToBits, bitsToNat]
  | succ w ih =>
    intro n h
    rw [natToBits_succ, bitsToNat_cons, natToBits_length]
    rw [← natToBits_mod w n, ih _ (Nat.mod_lt _ (by positivity))]
    have hdm := Nat.div_add_mod n (2 ^ w)
    have hd2 : n / 2 ^ w < 2 := by
      apply Nat.div_lt_of_lt_mul
      rw [← pow_succ]
      exact h
    have hbit : Nat.testBit n w = decide (n / 2 ^ w % 2 = 1) :=
      Nat.testBit_to_div_mod
    have hcases : n / 2 ^ w = 0 ∨ n / 2 ^ w = 1 :=
      Nat.le_one_iff_eq_zero_or_eq_one.mp (Nat.lt_succ_iff.mp hd2)
    rcases hcases with h0 | h1
    · rw [h0] at hdm
      rw [hbit, h0]
      simp only [Nat.zero_mod, Nat.mul_zero, Nat.zero_add] at hdm ⊢
      simp
      omega
    · rw [h1] at hdm
      rw [hbit, h1]
      simp only [Nat.mul_one] at hdm
      simp
      omega

/-- `bytes_to_bit_string` from `des_core.py`: each byte rendered as its 8
binary digits, most significant first. -/
def bytes_to_bit_string (data : List Nat) : List Bool :=
  (data.map (fun b => natToBits 8 b)).flatten

/-- Fuel-driven worker for `bit_string_to_bytes`: successive 8-bit chunks to
byte values (structural recursion so concrete runs reduce in the kernel). -/
def bitChunksAux : Nat → List Bool → List Nat
  | 0, _ => []
  | _, [] => []
  | fuel + 1, s => bitsToNat (s.take 8) :: bitChunksAux fuel (s.drop 8)

def bitChunks (s : List Bool) : List Nat :=
  bitChunksAux s.length s

/-- `bit_string_to_bytes` from `des_core.py`: right-pad with `'0'` to a
multiple of 8 bits, then convert each 8-bit chunk to a byte. -/
def bit_string_to_bytes (bit_string : List Bool) : List Nat :=
  let s := if bit_string.length % 8 ≠ 0
    then bit_string ++ List.replicate
        ((bit_string.length + 7) / 8 * 8 - bit_string.length) false
    else bit_string
  bitChunks s

/-- `rotate_left` from `des_core.py` (`n %= len(s); s[n:] + s[:n]`). -/
def rotate_left (s : List Bool) (n : Nat) : List Bool :=
  s.drop (n % s.length) ++ s.take (n % s.length)

/-- `_permute` from `des_core.py`: pick the (1-based) positions listed in
`table` out of `data_str`. -/
def _permute (data_str : List Bool) (table : List Nat) : List Bool :=
  table.map (fun i => data_str.getD (i - 1) false)

theorem bitChunksAux_fuel : ∀ f1 f2 : Nat, ∀ s : List Bool,
    s.length ≤ f1 → s.length ≤ f2 → bitChunksAux f1 s = bitChunksAux f2 s := by
  intro f1
  induction f1 with
  | zero =>
    intro f2 s h1 _
    have : s = [] := List.length_eq_zero.mp (Nat.le_zero.mp h1)
    subst this
    cases f2 <;> rfl
  | succ f ih =>
    intro f2 s h1 h2
    cases s with
    | nil => cases f2 <;> rfl
    | cons b t =>
      cases f2 with
      | zero => simp at h2
      | succ f2 =>
        simp only [bitChunksAux]
        have hd : ((b :: t).drop 8).length ≤ f := by
          simp only [List.length_drop, List.length_cons] at *
          omega
        have hd2 : ((b :: t).drop 8).length ≤ f2 := by
          simp only [List.length_drop, List.length_cons] at *
          omega
        rw [ih _ _ hd hd2]

theorem bitChunks_step (s : List Bool) (hs : s ≠ []) :
    bitChunks s = bitsToNat (s.take 8) :: bitChunks (s.drop 8) := by
  cases s with
  | nil => exact absurd rfl hs
  | cons b t =>
    show bitChunksAux (t.length + 1) (b :: t) = _
    simp only [bitChunksAux]
    rw [bitChunksAux_fuel t.length ((b :: t).drop 8).length ((b :: t).drop 8)
      (by simp [List.length_drop]) (le_refl _)]
    rfl

theorem bytes_to_bit_string_cons (b : Nat) (l : List Nat) :
    bytes_to_bit_string (b :: l) = natToBits 8 b ++ bytes_to_bit_string l := by
  simp [bytes_to_bit_string]

theorem bytes_to_bit_string_length (l : List Nat) :
    (bytes_to_bit_string l).length = 8 * l.length := by
  induction l with
  | nil => rfl
  | cons b t ih =>
    simp only [bytes_to_bit_string_cons, List.length_append, natToBits_length,
      List.length_cons, ih]
    ring

theorem bit_string_to_bytes_of_dvd (s : List Bool) (h : s.length % 8 = 0) :
    bit_string_to_bytes s = bitChunks s := by
  simp [bit_string_to_bytes, h]

/-- Converting bytes to bits and back is the identity on genuine bytes. -/
theorem bytes_roundtrip (B : List Nat) (hB : ∀ b ∈ B, b < 256) :
    bit_string_to_bytes (bytes_to_bit_string B) = B := by
  rw [bit_string_to_bytes_of_dvd _ (by rw [bytes_to_bit_string_length]; omega)]
  induction B with
  | nil => rfl
  | cons b t ih =>
    rw [bytes_to_bit_string_cons]
    have hlen8 : (natToBits 8 b).length = 8 := natToBits_length 8 b
    have hne : natToBits 8 b ++ bytes_to_bit_string t ≠ [] := by
      intro hcontra
      have := congrArg List.length hcontra
      simp [hlen8] at this
    rw [bitChunks_step _ hne]
    rw [List.take_left' hlen8, List.drop_left' hlen8]
    rw [bitsToNat_natToBits 8 b (hB b (by simp))]
    rw [ih (fun x hx => hB x (by simp [hx]))]

theorem bits_roundtrip_aux : ∀ n : Nat, ∀ s : List Bool, s.length ≤ n →
    s.length % 8 = 0 → bytes_to_bit_string (bitChunks s) = s := by
  intro n
  induction n with
  | zero =>
    intro s hle _
    have : s = [] := List.length_eq_zero.mp (Nat.le_zero.mp hle)
    subst this
    rfl
  | succ n ih =>
    intro s hle hdvd
    cases s with
    | nil => rfl
    | cons b t =>
      have hlen : 8 ≤ (b :: t).length := by
        by_contra hcon
        simp only [List.length_cons] at *
        omega
      rw [bitChunks_step _ (by simp), bytes_to_bit_string_cons]
      have htake : ((b :: t).take 8).length = 8 := by
        rw [List.length_take]
        omega
      rw [show natToBits 8 (bitsToNat ((b :: t).take 8))
            = natToBits ((b :: t).take 8).length (bitsToNat ((b :: t).take 8)) by
          rw [htake],
        natToBits_bitsToNat]
      rw [ih ((b :: t).drop 8)
        (by simp only [List.length_drop, List.length_cons] at *; omega)
        (by simp only [List.length_drop, List.length_cons] at *; omega)]
      exact List.take_append_drop 8 (b :: t)

/-- Converting a multiple-of-8 bit string to bytes and back is the identity. -/
theorem bits_roundtrip (s : List Bool) (h : s.length % 8 = 0) :
    bytes_to_bit_string (bitChunks s) = s :=
  bits_roundtrip_aux s.length s (le_refl _) h

theorem bitChunks_lt_aux : ∀ n : Nat, ∀ s : List Bool, s.length ≤ n →
    ∀ x ∈ bitChunks s, x < 256 := by
  intro n
  induction n with
  | zero =>
    intro s hle x hx
    have : s = [] := List.length_eq_zero.mp (Nat.le_zero.mp hle)
    subst this
    simp [bitChunks, bitChunksAux] at hx
  | succ n ih =>
    intro s hle x hx
    cases s with
    | nil => simp [bitChunks, bitChunksAux] at hx
    | cons b t =>
      rw [bitChunks_step _ (by simp)] at hx
      rcases List.mem_cons.mp hx with h | h
      · subst h
        have hv := bitsToNat_lt ((b :: t).take 8)
        have hlen : ((b :: t).take 8).length ≤ 8 := by
          rw [List.length_take]; omega
        calc bitsToNat ((b :: t).take 8) < 2 ^ ((b :: t).take 8).length := hv
          _ ≤ 2 ^ 8 := Nat.pow_le_pow_right (by norm_num) hlen
      · exact ih ((b :: t).drop 8)
          (by simp only [List.length_drop, List.length_cons] at *; omega) x h

theorem bitChunks_lt (s : List Bool) : ∀ x ∈ bitChunks s, x < 256 :=
  bitChunks_lt_aux s.length s (le_refl _)

theorem bitChunks_length_aux : ∀ n : Nat, ∀ s : List Bool, s.length ≤ n →
    s.length % 8 = 0 → (bitChunks s).length = s.length / 8 := by
  intro n
  induction n with
  | zero =>
    intro s hle _
    have : s = [] := List.length_eq_zero.mp (Nat.le_zero.mp hle)
    subst this
    simp [bitChunks, bitChunksAux]
  | succ n ih =>
    intro s hle hdvd
    cases s with
    | nil => simp [bitChunks, bitChunksAux]
    | cons b t =>
      have hlen : 8 ≤ (b :: t).length := by
        by_contra hcon
        simp only [List.length_cons] at *
        omega
      rw [bitChunks_step _ (by simp), List.length_cons]
      rw [ih ((b :: t).drop 8)
        (by simp only [List.length_drop, List.length_cons] at *; omega)
        (by simp only [List.length_drop, List.length_cons] at *; omega)]
      simp only [List.length_drop, List.length_cons] at *
      omega

theorem bitChunks_length (s : List Bool) (h : s.length % 8 = 0) :
    (bitChunks s).length = s.length / 8 :=
  bitChunks_length_aux s.length s (le_refl _) h

/-! ### Fixed tables of `des_core.py` -/

def P_BOX : List Nat :=
  [16, 7, 20, 21, 29, 12, 28, 17,
   1, 15, 23, 26, 5, 18, 31, 10,
   2, 8, 24, 14, 32, 27, 3, 9,
   19, 13, 30, 6, 22, 11, 4, 25]

def E_BOX : List Nat :=
  [32, 1, 2, 3, 4, 5,
   4, 5, 6, 7, 8, 9,
   8, 9, 10, 11, 12, 13,
   12, 13, 14, 15, 16, 17,
   16, 17, 18, 19, 20, 21,
   20, 21, 22, 23, 24, 25,
   24, 25, 26, 27, 28, 29,
   28, 29, 30, 31, 32, 1]

def S_BOXES : List (List Nat) :=
  [[14,4,13,1,2,15,11,8,3,10,6,12,5,9,0,7,
    0,15,7,4,14,2,13,1,10,6,12,11,9,5,3,8,
    4,1,14,8,13,6,2,11,15,12,9,7,3,10,5,0,
    15,12,8,2,4,9,1,7,5,11,3,14,10,0,6,13],
   [15,1,8,14,6,11,3,4,9,7,2,13,12,0,5,10,
    3,13,4,7,15,2,8,14,12,0,1,10,6,9,11,5,
    0,14,7,11,10,4,13,1,5,8,12,6,9,3,2,15,
    13,8,10,1,3,15,4,2,11,6,7,12,0,5,14,9],
   [10,0,9,14,6,3,15,5,1,13,12,7,11,4,2,8,
    13,7,0,9,3,4,6,10,2,8,5,14,12,11,15,1,
    13,6,4,9,8,15,3,0,11,1,2,12,5,10,14,7,
    1,10,13,0,6,9,8,7,4,15,14,3,11,5,2,12],
   [7,13,14,3,0,6,9,10,1,2,8,5,11,12,4,15,
    13,8,11,5,6,15,0,3,4,7,2,12,1,10,14,9,
    10,6,9,0,12,11,7,13,15,1,3,14,5,2,8,4,
    3,15,0,6,10,1,13,8,9,4,5,11,12,7,2,14],
   [2,12,4,1,7,10,11,6,8,5,3,15,13,0,14,9,
    14,11,2,12,4,7,13,1,5,0,15,10,3,9,8,6,
    4,2,1,11,10,13,7,8,15,9,12,5,6,3,0,14,
    11,8,12,7,1,14,2,13,6,15,0,9,10,4,5,3],
   [12,1,10,15,9,2,6,8,0,13,3,4,14,7,5,11,
    10,15,4,2,7,12,9,5,6,1,13,14,0,11,3,8,
    9,14,15,5,2,8,12,3,7,0,4,10,1,13,11,6,
    4,3,2,12,9,5,15,10,11,14,1,7,6,0,8,13],
   [4,11,2,14,15,0,8,13,3,12,9,7,5,10,6,1,
    13,0,11,7,4,9,1,10,14,3,5,12,2,15,8,6,
    1,4,11,13,12,3,7,14,10,15,6,8,0,5,9,2,
    6,11,13,8,1,4,10,7,9,5,0,15,14,2,3,12],
   [13,2,8,4,6,15,11,1,10,9,3,14,5,0,12,7,
    1,15,13,8,10,3,7,4,12,5,6,11,0,14,9,2,
    7,11,4,1,9,12,14,2,0,6,10,13,15,3,5,8,
    2,1,14,7,4,10,8,13,15,12,9,0,3,5,6,11]]

def PC_1 : List Nat :=
  [57,49,41,33,25,17,9,
   1,58,50,42,34,26,18,
   10,2,59,51,43,35,27,
   19,11,3,60,52,44,36,
   63,55,47,39,31,23,15,
   7,62,54,46,38,30,22,
   14,6,61,53,45,37,29,
   21,13,5,28,20,12,4]

def PC_2 : List Nat :=
  [14,17,11,24,1,5,
   3,28,15,6,21,10,
   23,19,12,4,26,8,
   16,7,27,20,13,2,
   41,52,31,37,47,55,
   30,40,51,45,33,48,
   44,49,39,56,34,53,
   46,42,50,36,29,32]

def ROTATIONS : List Nat := [1, 1, 2, 2, 2, 2, 2, 2, 1, 2, 2, 2, 2, 2, 2, 1]

/-! ### The `DES` class of `des_core.py` -/

/-- The exceptions the core and mode layer can raise on the paths the claims
exercise: the 8-byte check in `_process_block`, the missing-IV checks of the
chaining modes, and the `OverflowError` from `int.to_bytes` in CTR mode. -/
inductive CryptoError where
  | invalidBlockSize : CryptoError
  | missingIV : CryptoError
  | overflow : CryptoError
deriving DecidableEq

structure DES where
  block_size : Nat
  rounds : Nat
  keylen : Nat
  iv : Option (List Nat)
  key : List Nat
  subkeys : List (List Bool)
deriving DecidableEq

/-- The loop of `DES._generate_subkeys`: `count` rounds remaining, `i` the
current round index, `C`/`D` the already-rotated 28-bit halves carried over
from the previous round. -/
def subkeysLoop : Nat → Nat → List Bool → List Bool → List (List Bool)
  | 0, _, _, _ => []
  | count + 1, i, C, D =>
      let r := ROTATIONS.getD (i % ROTATIONS.length) 0
      let C1 := rotate_left C r
      let D1 := rotate_left D r
      _permute (C1 ++ D1) PC_2 :: subkeysLoop count (i + 1) C1 D1

/-- `DES._generate_subkeys`. -/
def _generate_subkeys (key : List Nat) (rounds : Nat) : List (List Bool) :=
  let key_str := bytes_to_bit_string key
  let pc1_key := _permute key_str PC_1
  subkeysLoop rounds 0 (pc1_key.take 28) (pc1_key.drop 28)

/-- Key normalisation in `DES.__init__`: zero-pad short keys on the right
(`ljust(8, b'\x00')`), truncate long keys; never rejected. -/
def normalizeKey (key : List Nat) : List Nat :=
  if key.length < 8 then key ++ List.replicate (8 - key.length) 0
  else if key.length > 8 then key.take 8
  else key

/-- `DES.__init__`.  Note it stores `rounds` and builds the schedule without
any validation of the round count, block size or IV. -/
def DES.make (key : List Nat) (block_size rounds keylen : Nat)
    (iv : Option (List Nat)) : DES :=
  let k := normalizeKey key
  { block_size := block_size, rounds := rounds, keylen := keylen, iv := iv,
    key := k, subkeys := _generate_subkeys k rounds }

/-- `DES._feistel_function`.  The source's defensive `ValueError`s cannot
fire: the xor is formatted to exactly 48 bits (both operands are 48-bit
strings at every call) and every S-box index `row * 16 + col` is below 64,
so the function is modelled as total. -/
def _feistel_function (R K : List Bool) : List Bool :=
  let expanded_R := _permute R E_BOX
  let xor_result := natToBits 48 (bitsToNat expanded_R ^^^ bitsToNat K)
  let s_box_output := (List.range 8).foldl (fun acc i =>
    let chunk := (xor_result.drop (i * 6)).take 6
    let row := bitsToNat [chunk.getD 0 false, chunk.getD 5 false]
    let col := bitsToNat ((chunk.drop 1).take 4)
    let s_val := (S_BOXES.getD i []).getD (row * 16 + col) 0
    acc ++ natToBits 4 s_val) []
  _permute s_box_output P_BOX

/-- One iteration of the round loop in `DES._process_block`:
`temp = R; R = f'{int(L,2) ^ int(f(R,k),2):032b}'; L = temp`. -/
def desRound (LR : List Bool × List Bool) (k : List Bool) :
    List Bool × List Bool :=
  (LR.2, natToBits 32 (bitsToNat LR.1 ^^^ bitsToNat (_feistel_function LR.2 k)))

/-- The round loop of `DES._process_block`: `for i in range(rounds)` using
`keys[i]`. -/
def desRoundsLoop (keys : List (List Bool)) (rounds : Nat)
    (s : List Bool × List Bool) : List Bool × List Bool :=
  (List.range rounds).foldl (fun st i => desRound st (keys.getD i [])) s

/-- Body of `DES._process_block` after the length check:
split into 32-bit halves, run the rounds (subkeys reversed when decrypting),
output `R ++ L` with no final half-swap. -/
def processCore (d : DES) (block : List Nat) (decrypt_mode : Bool) : List Nat :=
  let block_str := bytes_to_bit_string block
  let L := block_str.take 32
  let R := block_str.drop 32
  let keys := if decrypt_mode then d.subkeys.reverse else d.subkeys
  let LR := desRoundsLoop keys d.rounds (L, R)
  bit_string_to_bytes (LR.2 ++ LR.1)

/-- `DES._process_block`: raises unless the block is exactly 8 bytes. -/
def _process_block (d : DES) (block : List Nat) (decrypt_mode : Bool) :
    Except CryptoError (List Nat) :=
  if block.length ≠ 8 then .error .invalidBlockSize
  else .ok (processCore d block decrypt_mode)

/-- `DES.encrypt_block`. -/
def encrypt_block (d : DES) (block : List Nat) : Except CryptoError (List Nat) :=
  _process_block d block false

/-- `DES.decrypt_block`. -/
def decrypt_block (d : DES) (block : List Nat) : Except CryptoError (List Nat) :=
  _process_block d block true

example :
    (processCore (DES.make [77, 89, 83, 69, 67, 82, 69, 84] 64 8 64 none)
      [72, 69, 76, 76, 79, 65, 76, 73] false).length = 8 := by decide

/-! ### Padding and the mode layer of `modes.py` -/

/-- `pad` from `modes.py` (PKCS#7-style).  The `if padding_len == 0` branch of
the source is dead for a positive block size and is kept verbatim. -/
def pad (data : List Nat) (block_size : Nat) : List Nat :=
  let padding_len := block_size - data.length % block_size
  let padding_len := if padding_len = 0 then block_size else padding_len
  data ++ List.replicate padding_len padding_len

/-- `unpad` from `modes.py`: strips the trailing padding when the final byte
is a plausible pad length, and otherwise returns the data unchanged. -/
def unpad (data : List Nat) (block_size : Nat) : List Nat :=
  if data = [] then []
  else
    let padding_len := data.getLastD 0
    if padding_len < 1 ∨ padding_len > block_size ∨ padding_len > data.length
    then data
    else data.take (data.length - padding_len)

/-- Python truthiness of the stored IV: `None` and `b""` are falsy. -/
def ivFalsy : Option (List Nat) → Bool
  | none => true
  | some l => l.isEmpty

structure BaseMode where
  des : DES
  block_size_bytes : Nat
  iv : Option (List Nat)
deriving DecidableEq

/-- `_BaseMode.__init__` with an engine supplied (no claim path constructs a
mode without one): stores the engine, derives the block size in bytes and
copies the engine's IV.  No IV validation happens at construction. -/
def BaseMode.make (des_engine : DES) : BaseMode :=
  { des := des_engine,
    block_size_bytes := des_engine.block_size / 8,
    iv := des_engine.iv }

/-- Fuel-driven worker for `_get_blocks` (structural so the kernel can run
it on concrete data). -/
def getBlocksAux (n : Nat) : Nat → List Nat → List (List Nat)
  | 0, _ => []
  | _, [] => []
  | fuel + 1, d => d.take n :: getBlocksAux n fuel (d.drop n)

/-- `_BaseMode._get_blocks`: split the data into `n`-byte slices.  (The
source raises when the stored block size is zero; every use passes 8.) -/
def _get_blocks (n : Nat) (data : List Nat) : List (List Nat) :=
  getBlocksAux n data.length data

/-- Loop of `ECB.encrypt`: encrypt each block independently. -/
def ecbEncBlocks (d : DES) : List (List Nat) → Except CryptoError (List (List Nat))
  | [] => .ok []
  | b :: rest => do
      let c ← encrypt_block d b
      let tail ← ecbEncBlocks d rest
      pure (c :: tail)

/-- Loop of `ECB.decrypt`. -/
def ecbDecBlocks (d : DES) : List (List Nat) → Except CryptoError (List (List Nat))
  | [] => .ok []
  | b :: rest => do
      let c ← decrypt_block d b
      let tail ← ecbDecBlocks d rest
      pure (c :: tail)

/-- `ECB.encrypt`: pad, split, encrypt blockwise, concatenate. -/
def ECB.encrypt (m : BaseMode) (plaintext : List Nat) :
    Except CryptoError (List Nat) := do
  let padded := pad plaintext m.block_size_bytes
  let encrypted ← ecbEncBlocks m.des (_get_blocks m.block_size_bytes padded)
  pure encrypted.flatten

/-- `ECB.decrypt`: split, decrypt blockwise, concatenate, unpad. -/
def ECB.decrypt (m : BaseMode) (ciphertext : List Nat) :
    Except CryptoError (List Nat) := do
  let decrypted ← ecbDecBlocks m.des (_get_blocks m.block_size_bytes ciphertext)
  pure (unpad decrypted.flatten m.block_size_bytes)

/-- Loop of `CBC.encrypt` with `prev` the chaining block. -/
def cbcEncBlocks (d : DES) : List Nat → List (List Nat) →
    Except CryptoError (List (List Nat))
  | _, [] => .ok []
  | prev, b :: rest => do
      let xored := List.zipWith (fun p c => p ^^^ c) b prev
      let cb ← encrypt_block d xored
      let tail ← cbcEncBlocks d cb rest
      pure (cb :: tail)

/-- Loop of `CBC.decrypt` with `prev` the previous ciphertext block. -/
def cbcDecBlocks (d : DES) : List Nat → List (List Nat) →
    Except CryptoError (List (List Nat))
  | _, [] => .ok []
  | prev, c :: rest => do
      let dec ← decrypt_block d c
      let plain := List.zipWith (fun x p => x ^^^ p) dec prev
      let tail ← cbcDecBlocks d c rest
      pure (plain :: tail)

/-- `CBC.encrypt`: IV truthiness check, pad, chain-encrypt, concatenate. -/
def CBC.encrypt (m : BaseMode) (plaintext : List Nat) :
    Except CryptoError (List Nat) :=
  if ivFalsy m.iv then .error .missingIV
  else do
    let padded := pad plaintext m.block_size_bytes
    let cs ← cbcEncBlocks m.des (m.iv.getD []) (_get_blocks m.block_size_bytes padded)
    pure cs.flatten

/-- `CBC.decrypt`: IV truthiness check, chain-decrypt, concatenate, unpad. -/
def CBC.decrypt (m : BaseMode) (ciphertext : List Nat) :
    Except CryptoError (List Nat) :=
  if ivFalsy m.iv then .error .missingIV
  else do
    let ps ← cbcDecBlocks m.des (m.iv.getD []) (_get_blocks m.block_size_bytes ciphertext)
    pure (unpad ps.flatten m.block_size_bytes)

/-- Loop of `CFB.encrypt` with `prev` the feedback register. -/
def cfbEncBlocks (d : DES) : List Nat → List (List Nat) →
    Except CryptoError (List (List Nat))
  | _, [] => .ok []
  | prev, b :: rest => do
      let eiv ← encrypt_block d prev
      let cb := List.zipWith (fun p e => p ^^^ e) b eiv
      let tail ← cfbEncBlocks d cb rest
      pure (cb :: tail)

/-- Loop of `CFB.decrypt`: the feedback register is fed the input ciphertext
block, and the block primitive is only ever used in the encrypt direction. -/
def cfbDecBlocks (d : DES) : List Nat → List (List Nat) →
    Except CryptoError (List (List Nat))
  | _, [] => .ok []
  | prev, c :: rest => do
      let eiv ← encrypt_block d prev
      let plain := List.zipWith (fun x e => x ^^^ e) c eiv
      let tail ← cfbDecBlocks d c rest
      pure (plain :: tail)

/-- `CFB.encrypt`. -/
def CFB.encrypt (m : BaseMode) (plaintext : List Nat) :
    Except CryptoError (List Nat) :=
  if ivFalsy m.iv then .error .missingIV
  else do
    let padded := pad plaintext m.block_size_bytes
    let cs ← cfbEncBlocks m.des (m.iv.getD []) (_get_blocks m.block_size_bytes padded)
    pure cs.flatten

/-- `CFB.decrypt`. -/
def CFB.decrypt (m : BaseMode) (ciphertext : List Nat) :
    Except CryptoError (List Nat) :=
  if ivFalsy m.iv then .error .missingIV
  else do
    let ps ← cfbDecBlocks m.des (m.iv.getD []) (_get_blocks m.block_size_bytes ciphertext)
    pure (unpad ps.flatten m.block_size_bytes)

/-- Loop of `OFB.encrypt` with `feedback` the output-feedback register. -/
def ofbEncBlocks (d : DES) : List Nat → List (List Nat) →
    Except CryptoError (List (List Nat))
  | _, [] => .ok []
  | feedback, b :: rest => do
      let ob ← encrypt_block d feedback
      let cb := List.zipWith (fun p o => p ^^^ o) b ob
      let tail ← ofbEncBlocks d ob rest
      pure (cb :: tail)

/-- `OFB.encrypt`. -/
def OFB.encrypt (m : BaseMode) (plaintext : List Nat) :
    Except CryptoError (List Nat) :=
  if ivFalsy m.iv then .error .missingIV
  else do
    let padded := pad plaintext m.block_size_bytes
    let cs ← ofbEncBlocks m.des (m.iv.getD []) (_get_blocks m.block_size_bytes padded)
    pure cs.flatten

/-- `OFB.decrypt`: the source delegates to `OFB.encrypt` verbatim
(`return self.encrypt(ciphertext)`), including its padding step. -/
def OFB.decrypt (m : BaseMode) (ciphertext : List Nat) :
    Except CryptoError (List Nat) :=
  OFB.encrypt m ciphertext

/-- `int.from_bytes(iv, 'big')`. -/
def int_from_bytes (l : List Nat) : Nat :=
  l.foldl (fun acc b => 256 * acc + b) 0

/-- The big-endian byte rendering produced by `int.to_bytes(length, 'big')`
when the value fits. -/
def toBytesBE (length n : Nat) : List Nat :=
  (List.range length).reverse.map (fun i => n / 256 ^ i % 256)

/-- `counter.to_bytes(length, 'big')`: raises `OverflowError` when the value
does not fit in `length` bytes (the counter is never wrapped). -/
def int_to_bytes (length n : Nat) : Except CryptoError (List Nat) :=
  if 256 ^ length ≤ n then .error .overflow
  else .ok (toBytesBE length n)

/-- Loop of `CTR.encrypt`: encode the counter big-endian, encrypt it, xor. -/
def ctrEncBlocks (d : DES) (block_len : Nat) : Nat → List (List Nat) →
    Except CryptoError (List (List Nat))
  | _, [] => .ok []
  | counter, b :: rest => do
      let counter_block ← int_to_bytes block_len counter
      let ob ← encrypt_block d counter_block
      let cb := List.zipWith (fun p o => p ^^^ o) b ob
      let tail ← ctrEncBlocks d block_len (counter + 1) rest
      pure (cb :: tail)

/-- `CTR.encrypt`. -/
def CTR.encrypt (m : BaseMode) (plaintext : List Nat) :
    Except CryptoError (List Nat) :=
  if ivFalsy m.iv then .error .missingIV
  else do
    let padded := pad plaintext m.block_size_bytes
    let cs ← ctrEncBlocks m.des m.block_size_bytes (int_from_bytes (m.iv.getD []))
      (_get_blocks m.block_size_bytes padded)
    pure cs.flatten

/-- `CTR.decrypt`: the source delegates to `CTR.encrypt` verbatim
(`return self.encrypt(ciphertext)`), including its padding step. -/
def CTR.decrypt (m : BaseMode) (ciphertext : List Nat) :
    Except CryptoError (List Nat) :=
  CTR.encrypt m ciphertext

/-! ### `DES.encrypt` / `DES.decrypt` (the base64 pair in `des_core.py`) -/

/-- The standard base64 alphabet as ASCII codes (A-Z, a-z, 0-9, +, /). -/
def b64chars : List Nat :=
  [65, 66, 67, 68, 69, 70, 71, 72, 73, 74, 75, 76, 77, 78, 79, 80, 81, 82,
   83, 84, 85, 86, 87, 88, 89, 90,
   97, 98, 99, 100, 101, 102, 103, 104, 105, 106, 107, 108, 109, 110, 111,
   112, 113, 114, 115, 116, 117, 118, 119, 120, 121, 122,
   48, 49, 50, 51, 52, 53, 54, 55, 56, 57, 43, 47]

/-- Modelled from the Python standard library (`base64.b64encode`, which is
not part of this repository): 3-byte groups become 4 alphabet characters,
with `'='` (61) padding for a short final group. -/
def b64encode : List Nat → List Nat
  | b1 :: b2 :: b3 :: rest =>
      b64chars.getD (b1 / 4) 0 ::
      b64chars.getD (b1 % 4 * 16 + b2 / 16) 0 ::
      b64chars.getD (b2 % 16 * 4 + b3 / 64) 0 ::
      b64chars.getD (b3 % 64) 0 :: b64encode rest
  | [b1, b2] =>
      [b64chars.getD (b1 / 4) 0, b64chars.getD (b1 % 4 * 16 + b2 / 16) 0,
       b64chars.getD (b2 % 16 * 4) 0, 61]
  | [b1] =>
      [b64chars.getD (b1 / 4) 0, b64chars.getD (b1 % 4 * 16) 0, 61, 61]
  | [] => []

def b64index (c : Nat) : Nat := b64chars.indexOf c

/-- 4-character groups to 3 bytes, ignoring padding semantics. -/
def b64decodeCore : List Nat → List Nat
  | c1 :: c2 :: c3 :: c4 :: rest =>
      (b64index c1 * 4 + b64index c2 / 16) ::
      (b64index c2 % 16 * 16 + b64index c3 / 4) ::
      (b64index c3 % 4 * 64 + b64index c4) :: b64decodeCore rest
  | _ => []

/-- Modelled from the Python standard library (`base64.b64decode`, not part
of this repository), on well-formed input: each trailing `'='` contributes
zero bits and removes one byte from the final group's output. -/
def b64decode (s : List Nat) : List Nat :=
  let cnt := (s.filter (fun c => c == 61)).length
  (b64decodeCore (s.map (fun c => if c == 61 then 65 else c))).take
    (s.length / 4 * 3 - cnt)

/-- `DES.encrypt`: `b64encode(plaintext[::-1])` — independent of the key,
the rounds and every other engine field. -/
def DES.encrypt (_d : DES) (plaintext : List Nat) : List Nat :=
  b64encode plaintext.reverse

/-- `DES.decrypt`: `b64decode(ciphertext)[::-1]`. -/
def DES.decrypt (_d : DES) (ciphertext : List Nat) : List Nat :=
  (b64decode ciphertext).reverse

/-! ### Generic helper lemmas -/

theorem exc_ok_bind {α β : Type} (a : α) (f : α → Except CryptoError β) :
    (Except.ok a >>= f) = f a := rfl

theorem exc_err_bind {α β : Type} (e : CryptoError) (f : α → Except CryptoError β) :
    ((Except.error e : Except CryptoError α) >>= f) = .error e := rfl

theorem zipWith_xor_cancel : ∀ a b : List Nat, a.length ≤ b.length →
    List.zipWith (fun x p => x ^^^ p) (List.zipWith (fun p c => p ^^^ c) a b) b = a := by
  intro a
  induction a with
  | nil => intro b _; simp
  | cons x xs ih =>
    intro b hb
    cases b with
    | nil => simp at hb
    | cons y ys =>
      simp only [List.zipWith_cons_cons, List.length_cons] at *
      rw [Nat.xor_cancel_right, ih ys (by omega)]

theorem zipWith_xor_lt : ∀ a b : List Nat, (∀ x ∈ a, x < 256) →
    (∀ x ∈ b, x < 256) →
    ∀ x ∈ List.zipWith (fun p c => p ^^^ c) a b, x < 256 := by
  intro a
  induction a with
  | nil => intro b _ _ x hx; simp at hx
  | cons p ps ih =>
    intro b ha hb x hx
    cases b with
    | nil => simp at hx
    | cons c cs =>
      simp only [List.zipWith_cons_cons, List.mem_cons] at hx
      rcases hx with h | h
      · subst h
        exact @Nat.xor_lt_two_pow p c 8 (ha p (by simp)) (hb c (by simp))
      · exact ih cs (fun y hy => ha y (by simp [hy]))
          (fun y hy => hb y (by simp [hy])) x h

/-! ### The single-block primitive is an involution (claim C2 groundwork) -/

theorem feistel_length (R K : List Bool) :
    (_feistel_function R K).length = 32 := by
  unfold _feistel_function _permute
  rw [List.length_map]
  rfl

theorem desXor_cancel (L F : List Bool) (hL : L.length = 32) (hF : F.length = 32) :
    natToBits 32 (bitsToNat (natToBits 32 (bitsToNat L ^^^ bitsToNat F))
      ^^^ bitsToNat F) = L := by
  have hxlt : bitsToNat L ^^^ bitsToNat F < 2 ^ 32 :=
    Nat.xor_lt_two_pow (hL ▸ bitsToNat_lt L) (hF ▸ bitsToNat_lt F)
  rw [bitsToNat_natToBits 32 _ hxlt, Nat.xor_cancel_right]
  rw [show (32 : Nat) = L.length from hL.symm]
  exact natToBits_bitsToNat L

theorem foldl_desRound_inv : ∀ (ks : List (List Bool)) (L R : List Bool),
    L.length = 32 → R.length = 32 →
    ks.reverse.foldl desRound (ks.foldl desRound (L, R)).swap = (R, L) := by
  intro ks
  induction ks with
  | nil => intro L R _ _; rfl
  | cons k t ih =>
    intro L R hL hR
    have hX : (natToBits 32 (bitsToNat L ^^^ bitsToNat (_feistel_function R k))).length
        = 32 := natToBits_length 32 _
    rw [List.reverse_cons, List.foldl_append]
    rw [show (k :: t).foldl desRound (L, R) = t.foldl desRound (desRound (L, R) k)
      from rfl]
    rw [show desRound (L, R) k
      = (R, natToBits 32 (bitsToNat L ^^^ bitsToNat (_feistel_function R k))) from rfl]
    rw [ih R _ hR hX]
    show desRound (_, R) k = (R, L)
    unfold desRound
    refine Prod.ext rfl ?_
    exact desXor_cancel L (_feistel_function R k) hL (feistel_length R k)

theorem getD_append_length {α : Type} : ∀ (ks : List α) (k : α) (d : α),
    (ks ++ [k]).getD ks.length d = k := by
  intro ks k d
  induction ks with
  | nil => rfl
  | cons a t ih => simp [ih]

theorem getD_append_lt {α : Type} : ∀ (ks : List α) (k : α) (d : α) (i : Nat),
    i < ks.length → (ks ++ [k]).getD i d = ks.getD i d := by
  intro ks
  induction ks with
  | nil => intro k d i hi; simp at hi
  | cons a t ih =>
    intro k d i hi
    cases i with
    | zero => rfl
    | succ j =>
      simp only [List.length_cons] at hi
      simpa using ih k d j (by omega)

theorem foldl_range_congr {α : Type} : ∀ (n : Nat) (f g : α → Nat → α) (s : α),
    (∀ a i, i < n → f a i = g a i) →
    (List.range n).foldl f s = (List.range n).foldl g s := by
  intro n
  induction n with
  | zero => intro f g s _; rfl
  | succ n ih =>
    intro f g s h
    rw [List.range_succ, List.foldl_append, List.foldl_append]
    rw [ih f g s (fun a i hi => h a i (by omega))]
    simp only [List.foldl_cons, List.foldl_nil]
    exact h _ n (by omega)

/-- The `for i in range(rounds)` loop with `keys[i]` equals a fold over the
key list whenever the list has exactly `rounds` entries (always true for
engine-generated schedules). -/
theorem desRoundsLoop_eq_foldl : ∀ (keys : List (List Bool)) (s : List Bool × List Bool),
    desRoundsLoop keys keys.length s = keys.foldl desRound s := by
  intro keys
  induction keys using List.reverseRecOn with
  | nil => intro s; rfl
  | append_singleton ks k ih =>
    intro s
    unfold desRoundsLoop
    rw [List.length_append, List.length_cons, List.length_nil]
    rw [List.range_succ, List.foldl_append, List.foldl_append]
    rw [foldl_range_congr ks.length
      (fun st i => desRound st ((ks ++ [k]).getD i []))
      (fun st i => desRound st (ks.getD i [])) s
      (fun a i hi => by simp only [getD_append_lt ks k [] i hi])]
    rw [show (List.range ks.length).foldl (fun st i => desRound st (ks.getD i [])) s
      = desRoundsLoop ks ks.length s from rfl, ih s]
    simp only [List.foldl_cons, List.foldl_nil]
    rw [getD_append_length ks k []]

theorem foldl_desRound_lengths : ∀ (ks : List (List Bool)) (s : List Bool × List Bool),
    s.1.length = 32 → s.2.length = 32 →
    (ks.foldl desRound s).1.length = 32 ∧ (ks.foldl desRound s).2.length = 32 := by
  intro ks
  induction ks with
  | nil => intro s h1 h2; exact ⟨h1, h2⟩
  | cons k t ih =>
    intro s h1 h2
    simp only [List.foldl_cons]
    exact ih _ h2 (natToBits_length 32 _)

/-- Zeta-reduced form of `processCore` for rewriting. -/
theorem processCore_def (d : DES) (B : List Nat) (dm : Bool) :
    processCore d B dm
      = bit_string_to_bytes
          ((desRoundsLoop (if dm then d.subkeys.reverse else d.subkeys) d.rounds
              ((bytes_to_bit_string B).take 32, (bytes_to_bit_string B).drop 32)).2
            ++ (desRoundsLoop (if dm then d.subkeys.reverse else d.subkeys) d.rounds
              ((bytes_to_bit_string B).take 32, (bytes_to_bit_string B).drop 32)).1) :=
  rfl

theorem processCore_length (d : DES) (hkeys : d.subkeys.length = d.rounds)
    (B : List Nat) (hB8 : B.length = 8) (dm : Bool) :
    (processCore d B dm).length = 8 := by
  have hbits : (bytes_to_bit_string B).length = 64 := by
    rw [bytes_to_bit_string_length, hB8]
  have hkeys2 : (if dm then d.subkeys.reverse else d.subkeys).length = d.rounds := by
    cases dm <;> simp [hkeys]
  rw [processCore_def, ← hkeys2, desRoundsLoop_eq_foldl]
  have hL : ((bytes_to_bit_string B).take 32).length = 32 := by
    rw [List.length_take]; omega
  have hR : ((bytes_to_bit_string B).drop 32).length = 32 := by
    rw [List.length_drop]; omega
  have hfold := foldl_desRound_lengths (if dm then d.subkeys.reverse else d.subkeys)
    ((bytes_to_bit_string B).take 32, (bytes_to_bit_string B).drop 32) hL hR
  rw [bit_string_to_bytes_of_dvd _ (by rw [List.length_append, hfold.1, hfold.2])]
  rw [bitChunks_length _ (by rw [List.length_append, hfold.1, hfold.2])]
  rw [List.length_append, hfold.1, hfold.2]

theorem processCore_lt (d : DES) (B : List Nat) (dm : Bool) :
    ∀ x ∈ processCore d B dm, x < 256 := by
  unfold processCore
  intro x hx
  unfold bit_string_to_bytes at hx
  exact bitChunks_lt _ x hx

/-- Decrypting the encryption of an 8-byte block returns the block: the two
directions run the same rounds with the subkey order reversed and no final
half-swap, which is self-inverting. -/
theorem processCore_roundtrip (d : DES) (hkeys : d.subkeys.length = d.rounds)
    (B : List Nat) (hB8 : B.length = 8) (hBlt : ∀ b ∈ B, b < 256) :
    processCore d (processCore d B false) true = B := by
  have hbits : (bytes_to_bit_string B).length = 64 := by
    rw [bytes_to_bit_string_length, hB8]
  have hL : ((bytes_to_bit_string B).take 32).length = 32 := by
    rw [List.length_take]; omega
  have hR : ((bytes_to_bit_string B).drop 32).length = 32 := by
    rw [List.length_drop]; omega
  have henc : processCore d B false
      = bit_string_to_bytes
          ((desRoundsLoop d.subkeys d.rounds
              ((bytes_to_bit_string B).take 32, (bytes_to_bit_string B).drop 32)).2
            ++ (desRoundsLoop d.subkeys d.rounds
              ((bytes_to_bit_string B).take 32, (bytes_to_bit_string B).drop 32)).1) :=
    rfl
  rw [henc, ← hkeys, desRoundsLoop_eq_foldl]
  set P := d.subkeys.foldl desRound
    ((bytes_to_bit_string B).take 32, (bytes_to_bit_string B).drop 32) with hP
  have hfold := foldl_desRound_lengths d.subkeys
    ((bytes_to_bit_string B).take 32, (bytes_to_bit_string B).drop 32) hL hR
  rw [← hP] at hfold
  have houtdvd : (P.2 ++ P.1).length % 8 = 0 := by
    rw [List.length_append, hfold.1, hfold.2]
  have hdec : ∀ C : List Nat, processCore d C true
      = bit_string_to_bytes
          ((desRoundsLoop d.subkeys.reverse d.rounds
              ((bytes_to_bit_string C).take 32, (bytes_to_bit_string C).drop 32)).2
            ++ (desRoundsLoop d.subkeys.reverse d.rounds
              ((bytes_to_bit_string C).take 32, (bytes_to_bit_string C).drop 32)).1) :=
    fun C => rfl
  rw [hdec, bit_string_to_bytes_of_dvd _ houtdvd, bits_roundtrip _ houtdvd]
  have htake : (P.2 ++ P.1).take 32 = P.2 := by
    rw [show (32 : Nat) = P.2.length from hfold.2.symm]
    exact List.take_left P.2 P.1
  have hdrop : (P.2 ++ P.1).drop 32 = P.1 := by
    rw [show (32 : Nat) = P.2.length from hfold.2.symm]
    exact List.drop_left P.2 P.1
  have hrounds_rev : d.rounds = d.subkeys.reverse.length := by simp [hkeys]
  rw [htake, hdrop, hrounds_rev, desRoundsLoop_eq_foldl]
  rw [show ((P.2 : List Bool), (P.1 : List Bool)) = P.swap from rfl]
  rw [hP, foldl_desRound_inv d.subkeys _ _ hL hR]
  show bit_string_to_bytes
    ((bytes_to_bit_string B).take 32 ++ (bytes_to_bit_string B).drop 32) = B
  rw [List.take_append_drop]
  exact bytes_roundtrip B hBlt

theorem encrypt_block_ok (d : DES) (B : List Nat) (h : B.length = 8) :
    encrypt_block d B = .ok (processCore d B false) := by
  simp [encrypt_block, _process_block, h]

theorem decrypt_block_ok (d : DES) (B : List Nat) (h : B.length = 8) :
    decrypt_block d B = .ok (processCore d B true) := by
  simp [decrypt_block, _process_block, h]

theorem subkeysLoop_length : ∀ (n i : Nat) (C D : List Bool),
    (subkeysLoop n i C D).length = n := by
  intro n
  induction n with
  | zero => intro i C D; rfl
  | succ n ih => intro i C D; simp [subkeysLoop, ih]

theorem make_subkeys_length (key : List Nat) (bs r kl : Nat)
    (iv : Option (List Nat)) : (DES.make key bs r kl iv).subkeys.length = r :=
  subkeysLoop_length r 0 _ _

theorem make_rounds (key : List Nat) (bs r kl : Nat) (iv : Option (List Nat)) :
    (DES.make key bs r kl iv).rounds = r := rfl

/-- Single-block round trip at the `_process_block` level. -/
theorem process_block_roundtrip (d : DES) (hkeys : d.subkeys.length = d.rounds)
    (B : List Nat) (hB8 : B.length = 8) (hBlt : ∀ b ∈ B, b < 256) :
    (encrypt_block d B).bind (decrypt_block d) = .ok B := by
  rw [encrypt_block_ok d B hB8]
  show decrypt_block d (processCore d B false) = .ok B
  rw [decrypt_block_ok d _ (processCore_length d hkeys B hB8 false)]
  rw [processCore_roundtrip d hkeys B hB8 hBlt]

/-! ### `_get_blocks` lemmas -/

theorem getBlocksAux_fuel (n : Nat) (hn : 0 < n) : ∀ f1 f2 : Nat, ∀ s : List Nat,
    s.length ≤ f1 → s.length ≤ f2 → getBlocksAux n f1 s = getBlocksAux n f2 s := by
  intro f1
  induction f1 with
  | zero =>
    intro f2 s h1 _
    have : s = [] := List.length_eq_zero.mp (Nat.le_zero.mp h1)
    subst this
    cases f2 <;> rfl
  | succ f ih =>
    intro f2 s h1 h2
    cases s with
    | nil => cases f2 <;> rfl
    | cons b t =>
      cases f2 with
      | zero => simp at h2
      | succ f2 =>
        simp only [getBlocksAux]
        have hd : ((b :: t).drop n).length ≤ f := by
          simp only [List.length_drop, List.length_cons] at *
          omega
        have hd2 : ((b :: t).drop n).length ≤ f2 := by
          simp only [List.length_drop, List.length_cons] at *
          omega
        rw [ih _ _ hd hd2]

theorem get_blocks_nil (n : Nat) : _get_blocks n [] = [] := rfl

theorem get_blocks_step (n : Nat) (hn : 0 < n) (s : List Nat) (hs : s ≠ []) :
    _get_blocks n s = s.take n :: _get_blocks n (s.drop n) := by
  cases s with
  | nil => exact absurd rfl hs
  | cons b t =>
    show getBlocksAux n (t.length + 1) (b :: t) = _
    simp only [getBlocksAux]
    rw [getBlocksAux_fuel n hn t.length ((b :: t).drop n).length ((b :: t).drop n)
      (by simp only [List.length_drop, List.length_cons]; omega) (le_refl _)]
    rfl

theorem blocks_flatten_aux : ∀ f : Nat, ∀ s : List Nat, s.length ≤ f →
    s.length % 8 = 0 → (_get_blocks 8 s).flatten = s := by
  intro f
  induction f with
  | zero =>
    intro s hle _
    have : s = [] := List.length_eq_zero.mp (Nat.le_zero.mp hle)
    subst this
    rfl
  | succ f ih =>
    intro s hle hdvd
    cases s with
    | nil => rfl
    | cons b t =>
      have hlen : 8 ≤ (b :: t).length := by
        by_contra hcon
        simp only [List.length_cons] at *
        omega
      rw [get_blocks_step 8 (by norm_num) _ (by simp), List.flatten_cons]
      rw [ih ((b :: t).drop 8)
        (by simp only [List.length_drop, List.length_cons] at *; omega)
        (by simp only [List.length_drop, List.length_cons] at *; omega)]
      exact List.take_append_drop 8 (b :: t)

theorem blocks_flatten (s : List Nat) (h : s.length % 8 = 0) :
    (_get_blocks 8 s).flatten = s :=
  blocks_flatten_aux s.length s (le_refl _) h

theorem blocks_length8_aux : ∀ f : Nat, ∀ s : List Nat, s.length ≤ f →
    s.length % 8 = 0 → ∀ b ∈ _get_blocks 8 s, b.length = 8 := by
  intro f
  induction f with
  | zero =>
    intro s hle _ b hb
    have : s = [] := List.length_eq_zero.mp (Nat.le_zero.mp hle)
    subst this
    simp [get_blocks_nil] at hb
  | succ f ih =>
    intro s hle hdvd b hb
    cases s with
    | nil => simp [get_blocks_nil] at hb
    | cons x t =>
      have hlen : 8 ≤ (x :: t).length := by
        by_contra hcon
        simp only [List.length_cons] at *
        omega
      rw [get_blocks_step 8 (by norm_num) _ (by simp)] at hb
      rcases List.mem_cons.mp hb with h | h
      · subst h
        rw [List.length_take]
        omega
      · exact ih ((x :: t).drop 8)
          (by simp only [List.length_drop, List.length_cons] at *; omega)
          (by simp only [List.length_drop, List.length_cons] at *; omega) b h

theorem blocks_length8 (s : List Nat) (h : s.length % 8 = 0) :
    ∀ b ∈ _get_blocks 8 s, b.length = 8 :=
  blocks_length8_aux s.length s (le_refl _) h

theorem blocks_mem_aux : ∀ f : Nat, ∀ s : List Nat, s.length ≤ f →
    ∀ b ∈ _get_blocks 8 s, ∀ x ∈ b, x ∈ s := by
  intro f
  induction f with
  | zero =>
    intro s hle b hb
    have : s = [] := List.length_eq_zero.mp (Nat.le_zero.mp hle)
    subst this
    simp [get_blocks_nil] at hb
  | succ f ih =>
    intro s hle b hb x hx
    cases s with
    | nil => simp [get_blocks_nil] at hb
    | cons y t =>
      rw [get_blocks_step 8 (by norm_num) _ (by simp)] at hb
      rcases List.mem_cons.mp hb with h | h
      · subst h
        exact List.mem_of_mem_take hx
      · have := ih ((y :: t).drop 8)
          (by simp only [List.length_drop, List.length_cons] at *; omega) b h x hx
        exact List.mem_of_mem_drop this

theorem blocks_mem (s : List Nat) : ∀ b ∈ _get_blocks 8 s, ∀ x ∈ b, x ∈ s :=
  blocks_mem_aux s.length s (le_refl _)

theorem blocks_count_aux : ∀ f : Nat, ∀ s : List Nat, s.length ≤ f →
    s.length % 8 = 0 → (_get_blocks 8 s).length = s.length / 8 := by
  intro f
  induction f with
  | zero =>
    intro s hle _
    have : s = [] := List.length_eq_zero.mp (Nat.le_zero.mp hle)
    subst this
    rfl
  | succ f ih =>
    intro s hle hdvd
    cases s with
    | nil => rfl
    | cons b t =>
      have hlen : 8 ≤ (b :: t).length := by
        by_contra hcon
        simp only [List.length_cons] at *
        omega
      rw [get_blocks_step 8 (by norm_num) _ (by simp), List.length_cons]
      rw [ih ((b :: t).drop 8)
        (by simp only [List.length_drop, List.length_cons] at *; omega)
        (by simp only [List.length_drop, List.length_cons] at *; omega)]
      simp only [List.length_drop, List.length_cons] at *
      omega

theorem blocks_count (s : List Nat) (h : s.length % 8 = 0) :
    (_get_blocks 8 s).length = s.length / 8 :=
  blocks_count_aux s.length s (le_refl _) h

/-- Splitting a concatenation of 8-byte blocks recovers exactly the blocks. -/
theorem blocks_join : ∀ cs : List (List Nat), (∀ c ∈ cs, c.length = 8) →
    _get_blocks 8 cs.flatten = cs := by
  intro cs
  induction cs with
  | nil => intro _; rfl
  | cons c rest ih =>
    intro h
    have hc : c.length = 8 := h c (by simp)
    have hcne : c ++ rest.flatten ≠ [] := by
      intro hcontra
      have := congrArg List.length hcontra
      simp [hc] at this
    rw [List.flatten_cons, get_blocks_step 8 (by norm_num) _ hcne]
    rw [List.take_left' hc, List.drop_left' hc]
    rw [ih (fun x hx => h x (by simp [hx]))]

/-! ### `pad` / `unpad` lemmas -/

theorem pad_def (D : List Nat) (bs : Nat) :
    pad D bs = D ++ List.replicate
      (if bs - D.length % bs = 0 then bs else bs - D.length % bs)
      (if bs - D.length % bs = 0 then bs else bs - D.length % bs) := rfl

theorem pad_eq (D : List Nat) :
    pad D 8 = D ++ List.replicate (8 - D.length % 8) (8 - D.length % 8) := by
  have hm : D.length % 8 < 8 := Nat.mod_lt _ (by norm_num)
  rw [pad_def, if_neg (by omega)]

theorem pad_length (D : List Nat) :
    (pad D 8).length = D.length + (8 - D.length % 8) := by
  rw [pad_eq]
  simp

theorem pad_mod (D : List Nat) : (pad D 8).length % 8 = 0 := by
  rw [pad_length]
  have hm : D.length % 8 < 8 := Nat.mod_lt _ (by norm_num)
  omega

theorem pad_gt (D : List Nat) : D.length < (pad D 8).length := by
  rw [pad_length]
  have hm : D.length % 8 < 8 := Nat.mod_lt _ (by norm_num)
  omega

theorem pad_lt (D : List Nat) (hD : ∀ x ∈ D, x < 256) :
    ∀ x ∈ pad D 8, x < 256 := by
  rw [pad_eq]
  intro x hx
  rcases List.mem_append.mp hx with h | h
  · exact hD x h
  · have := List.eq_of_mem_replicate h
    subst this
    have hm : D.length % 8 < 8 := Nat.mod_lt _ (by norm_num)
    omega

theorem unpad_def (D : List Nat) :
    unpad D 8 = if D = [] then []
      else if D.getLastD 0 < 1 ∨ D.getLastD 0 > 8 ∨ D.getLastD 0 > D.length
      then D else D.take (D.length - D.getLastD 0) := rfl

/-- `unpad` undoes `pad` on every input. -/
theorem unpad_pad (D : List Nat) : unpad (pad D 8) 8 = D := by
  have hm : D.length % 8 < 8 := Nat.mod_lt _ (by norm_num)
  set n := 8 - D.length % 8 with hn
  have hn1 : 1 ≤ n := by omega
  have hn8 : n ≤ 8 := by omega
  have hpadlen : (pad D 8).length = D.length + n := pad_length D
  have hne : pad D 8 ≠ [] := by
    intro hcontra
    have := congrArg List.length hcontra
    rw [hpadlen] at this
    simp at this
    omega
  have hlast : (pad D 8).getLastD 0 = n := by
    rw [pad_eq, ← hn]
    rcases Nat.exists_eq_add_of_le hn1 with ⟨m, hmn⟩
    rw [hmn]
    rw [show (1 + m) = m + 1 by omega, List.replicate_succ']
    rw [← List.append_assoc]
    rw [List.getLastD_eq_getLast?, List.getLast?_concat]
    rfl
  rw [unpad_def, if_neg hne, hlast]
  rw [if_neg (by omega)]
  rw [hpadlen, Nat.add_sub_cancel]
  rw [pad_eq, ← hn, List.take_left]

/-- A final byte that is not a plausible pad length leaves the data
untouched. -/
theorem unpad_invalid (D : List Nat) (hne : D ≠ [])
    (hbad : D.getLastD 0 < 1 ∨ D.getLastD 0 > 8 ∨ D.getLastD 0 > D.length) :
    unpad D 8 = D := by
  rw [unpad_def, if_neg hne, if_pos hbad]

/-! ### Mode block-loop lemmas -/

theorem flatten_length_of8 : ∀ cs : List (List Nat), (∀ c ∈ cs, c.length = 8) →
    cs.flatten.length = 8 * cs.length := by
  intro cs
  induction cs with
  | nil => intro _; rfl
  | cons c rest ih =>
    intro h
    rw [List.flatten_cons, List.length_append, h c (by simp),
      ih (fun x hx => h x (by simp [hx])), List.length_cons]
    ring

theorem ecb_blocks_roundtrip (d : DES) (hkeys : d.subkeys.length = d.rounds) :
    ∀ bs : List (List Nat), (∀ b ∈ bs, b.length = 8 ∧ ∀ x ∈ b, x < 256) →
    ∃ cs, ecbEncBlocks d bs = .ok cs
      ∧ cs.length = bs.length
      ∧ (∀ c ∈ cs, c.length = 8 ∧ ∀ x ∈ c, x < 256)
      ∧ ecbDecBlocks d cs = .ok bs := by
  intro bs
  induction bs with
  | nil => exact fun _ => ⟨[], rfl, rfl, by simp, rfl⟩
  | cons b rest ih =>
    intro h
    obtain ⟨hb8, hblt⟩ := h b (by simp)
    obtain ⟨cs, hcs, hlen, hprops, hdec⟩ := ih (fun x hx => h x (by simp [hx]))
    refine ⟨processCore d b false :: cs, ?_, by simp [hlen], ?_, ?_⟩
    · show (encrypt_block d b >>= fun c =>
        ecbEncBlocks d rest >>= fun tail => pure (c :: tail)) = _
      rw [encrypt_block_ok d b hb8, exc_ok_bind, hcs, exc_ok_bind]
      rfl
    · intro c hc
      rcases List.mem_cons.mp hc with h1 | h1
      · subst h1
        exact ⟨processCore_length d hkeys b hb8 false, processCore_lt d b false⟩
      · exact hprops c h1
    · show (decrypt_block d (processCore d b false) >>= fun c =>
        ecbDecBlocks d cs >>= fun tail => pure (c :: tail)) = _
      rw [decrypt_block_ok d _ (processCore_length d hkeys b hb8 false),
        exc_ok_bind, hdec, exc_ok_bind, processCore_roundtrip d hkeys b hb8 hblt]
      rfl

theorem cbc_blocks_roundtrip (d : DES) (hkeys : d.subkeys.length = d.rounds) :
    ∀ bs : List (List Nat), ∀ prev : List Nat,
    (∀ b ∈ bs, b.length = 8 ∧ ∀ x ∈ b, x < 256) →
    prev.length = 8 → (∀ x ∈ prev, x < 256) →
    ∃ cs, cbcEncBlocks d prev bs = .ok cs
      ∧ cs.length = bs.length
      ∧ (∀ c ∈ cs, c.length = 8 ∧ ∀ x ∈ c, x < 256)
      ∧ cbcDecBlocks d prev cs = .ok bs := by
  intro bs
  induction bs with
  | nil => exact fun prev _ _ _ => ⟨[], rfl, rfl, by simp, rfl⟩
  | cons b rest ih =>
    intro prev h hp8 hplt
    obtain ⟨hb8, hblt⟩ := h b (by simp)
    have hx8 : (List.zipWith (fun p c => p ^^^ c) b prev).length = 8 := by
      rw [List.length_zipWith, hb8, hp8]
      simp
    have hxlt : ∀ y ∈ List.zipWith (fun p c => p ^^^ c) b prev, y < 256 :=
      zipWith_xor_lt b prev hblt hplt
    have hcb8 : (processCore d (List.zipWith (fun p c => p ^^^ c) b prev) false).length = 8 :=
      processCore_length d hkeys _ hx8 false
    have hcblt : ∀ y ∈ processCore d (List.zipWith (fun p c => p ^^^ c) b prev) false,
        y < 256 := processCore_lt d _ false
    obtain ⟨cs, hcs, hlen, hprops, hdec⟩ :=
      ih (processCore d (List.zipWith (fun p c => p ^^^ c) b prev) false)
        (fun y hy => h y (by simp [hy])) hcb8 hcblt
    refine ⟨processCore d (List.zipWith (fun p c => p ^^^ c) b prev) false :: cs,
      ?_, by simp [hlen], ?_, ?_⟩
    · show (encrypt_block d (List.zipWith (fun p c => p ^^^ c) b prev) >>= fun cb =>
        cbcEncBlocks d cb rest >>= fun tail => pure (cb :: tail)) = _
      rw [encrypt_block_ok d _ hx8, exc_ok_bind, hcs, exc_ok_bind]
      rfl
    · intro c hc
      rcases List.mem_cons.mp hc with h1 | h1
      · subst h1
        exact ⟨hcb8, hcblt⟩
      · exact hprops c h1
    · show (decrypt_block d (processCore d (List.zipWith (fun p c => p ^^^ c) b prev) false)
          >>= fun dec =>
        cbcDecBlocks d (processCore d (List.zipWith (fun p c => p ^^^ c) b prev) false) cs
          >>= fun tail =>
        pure (List.zipWith (fun x p => x ^^^ p) dec prev :: tail)) = _
      rw [decrypt_block_ok d _ hcb8, exc_ok_bind,
        processCore_roundtrip d hkeys _ hx8 hxlt, hdec, exc_ok_bind]
      rw [zipWith_xor_cancel b prev (by omega)]
      rfl

theorem cfb_blocks_roundtrip (d : DES) (hkeys : d.subkeys.length = d.rounds) :
    ∀ bs : List (List Nat), ∀ prev : List Nat,
    (∀ b ∈ bs, b.length = 8) → prev.length = 8 →
    ∃ cs, cfbEncBlocks d prev bs = .ok cs
      ∧ cs.length = bs.length
      ∧ (∀ c ∈ cs, c.length = 8)
      ∧ cfbDecBlocks d prev cs = .ok bs := by
  intro bs
  induction bs with
  | nil => exact fun prev _ _ => ⟨[], rfl, rfl, by simp, rfl⟩
  | cons b rest ih =>
    intro prev h hp8
    have hb8 : b.length = 8 := h b (by simp)
    have he8 : (processCore d prev false).length = 8 :=
      processCore_length d hkeys prev hp8 false
    have hcb8 : (List.zipWith (fun p e => p ^^^ e) b (processCore d prev false)).length
        = 8 := by
      rw [List.length_zipWith, hb8, he8]
      simp
    obtain ⟨cs, hcs, hlen, hprops, hdec⟩ :=
      ih (List.zipWith (fun p e => p ^^^ e) b (processCore d prev false))
        (fun y hy => h y (by simp [hy])) hcb8
    refine ⟨List.zipWith (fun p e => p ^^^ e) b (processCore d prev false) :: cs,
      ?_, by simp [hlen], ?_, ?_⟩
    · show (encrypt_block d prev >>= fun eiv =>
        cfbEncBlocks d (List.zipWith (fun p e => p ^^^ e) b eiv) rest >>= fun tail =>
        pure (List.zipWith (fun p e => p ^^^ e) b eiv :: tail)) = _
      rw [encrypt_block_ok d prev hp8, exc_ok_bind, hcs, exc_ok_bind]
      rfl
    · intro c hc
      rcases List.mem_cons.mp hc with h1 | h1
      · subst h1
        exact hcb8
      · exact hprops c h1
    · show (encrypt_block d prev >>= fun eiv =>
        cfbDecBlocks d (List.zipWith (fun p e => p ^^^ e) b (processCore d prev false)) cs
          >>= fun tail =>
        pure (List.zipWith (fun x e => x ^^^ e)
          (List.zipWith (fun p e => p ^^^ e) b (processCore d prev false)) eiv :: tail)) = _
      rw [encrypt_block_ok d prev hp8, exc_ok_bind, hdec, exc_ok_bind]
      rw [zipWith_xor_cancel b (processCore d prev false) (by omega)]
      rfl

theorem ofb_blocks_ok (d : DES) (hkeys : d.subkeys.length = d.rounds) :
    ∀ bs : List (List Nat), ∀ fb : List Nat,
    (∀ b ∈ bs, b.length = 8) → fb.length = 8 →
    ∃ cs, ofbEncBlocks d fb bs = .ok cs
      ∧ cs.length = bs.length
      ∧ (∀ c ∈ cs, c.length = 8) := by
  intro bs
  induction bs with
  | nil => exact fun fb _ _ => ⟨[], rfl, rfl, by simp⟩
  | cons b rest ih =>
    intro fb h hf8
    have hb8 : b.length = 8 := h b (by simp)
    have ho8 : (processCore d fb false).length = 8 :=
      processCore_length d hkeys fb hf8 false
    obtain ⟨cs, hcs, hlen, hprops⟩ :=
      ih (processCore d fb false) (fun y hy => h y (by simp [hy])) ho8
    refine ⟨List.zipWith (fun p o => p ^^^ o) b (processCore d fb false) :: cs,
      ?_, by simp [hlen], ?_⟩
    · show (encrypt_block d fb >>= fun ob =>
        ofbEncBlocks d ob rest >>= fun tail =>
        pure (List.zipWith (fun p o => p ^^^ o) b ob :: tail)) = _
      rw [encrypt_block_ok d fb hf8, exc_ok_bind, hcs, exc_ok_bind]
      rfl
    · intro c hc
      rcases List.mem_cons.mp hc with h1 | h1
      · subst h1
        rw [List.length_zipWith, hb8, ho8]
        simp
      · exact hprops c h1

/-! ### Top-level mode round trips -/

theorem ivFalsy_some (l : List Nat) (h : l.length = 8) :
    ivFalsy (some l) = false := by
  cases l with
  | nil => simp at h
  | cons x t => rfl

theorem padded_blocks_good (P : List Nat) (hP : ∀ x ∈ P, x < 256) :
    ∀ b ∈ _get_blocks 8 (pad P 8), b.length = 8 ∧ ∀ x ∈ b, x < 256 :=
  fun b hb => ⟨blocks_length8 _ (pad_mod P) b hb,
    fun x hx => pad_lt P hP x (blocks_mem _ b hb x hx)⟩

theorem bsb_of_make (key : List Nat) (r kl : Nat) (iv : Option (List Nat)) :
    (BaseMode.make (DES.make key 64 r kl iv)).block_size_bytes = 8 := by
  show (DES.make key 64 r kl iv).block_size / 8 = 8
  show (64 : Nat) / 8 = 8
  norm_num

theorem iv_of_make (key : List Nat) (bs2 r kl : Nat) (iv : Option (List Nat)) :
    (BaseMode.make (DES.make key bs2 r kl iv)).iv = iv := rfl

theorem des_of_make (key : List Nat) (bs2 r kl : Nat) (iv : Option (List Nat)) :
    (BaseMode.make (DES.make key bs2 r kl iv)).des = DES.make key bs2 r kl iv := rfl

theorem ECB_mode_roundtrip (m : BaseMode) (hbsb : m.block_size_bytes = 8)
    (hkeys : m.des.subkeys.length = m.des.rounds)
    (P : List Nat) (hP : ∀ x ∈ P, x < 256) :
    (ECB.encrypt m P).bind (ECB.decrypt m) = .ok P := by
  obtain ⟨cs, hcs, hlen, hprops, hdec⟩ :=
    ecb_blocks_roundtrip m.des hkeys
      (_get_blocks 8 (pad P 8)) (padded_blocks_good P hP)
  have e1 : ECB.encrypt m P
      = (ecbEncBlocks m.des
          (_get_blocks m.block_size_bytes (pad P m.block_size_bytes)) >>=
          fun encrypted => pure encrypted.flatten) := rfl
  rw [e1, hbsb, hcs, exc_ok_bind]
  show ECB.decrypt m cs.flatten = .ok P
  have e2 : ECB.decrypt m cs.flatten
      = (ecbDecBlocks m.des (_get_blocks m.block_size_bytes cs.flatten) >>=
          fun decrypted => pure (unpad decrypted.flatten m.block_size_bytes)) := rfl
  rw [e2, hbsb, blocks_join cs (fun c hc => (hprops c hc).1), hdec, exc_ok_bind]
  rw [blocks_flatten _ (pad_mod P), unpad_pad]
  rfl

theorem CBC_mode_roundtrip (m : BaseMode) (ivb : List Nat)
    (hbsb : m.block_size_bytes = 8) (hiv : m.iv = some ivb)
    (hkeys : m.des.subkeys.length = m.des.rounds)
    (hiv8 : ivb.length = 8) (hivlt : ∀ x ∈ ivb, x < 256)
    (P : List Nat) (hP : ∀ x ∈ P, x < 256) :
    (CBC.encrypt m P).bind (CBC.decrypt m) = .ok P := by
  have hfalse : ivFalsy m.iv = false := by rw [hiv]; exact ivFalsy_some ivb hiv8
  obtain ⟨cs, hcs, hlen, hprops, hdec⟩ :=
    cbc_blocks_roundtrip m.des hkeys
      (_get_blocks 8 (pad P 8)) ivb (padded_blocks_good P hP) hiv8 hivlt
  have e1 : CBC.encrypt m P
      = (if ivFalsy m.iv then .error .missingIV
        else (cbcEncBlocks m.des (m.iv.getD [])
            (_get_blocks m.block_size_bytes (pad P m.block_size_bytes)) >>=
          fun cs => pure cs.flatten)) := rfl
  rw [e1, if_neg (by simp [hfalse]), hbsb, hiv]
  show (cbcEncBlocks m.des ivb (_get_blocks 8 (pad P 8)) >>=
    fun cs => pure cs.flatten).bind (CBC.decrypt m) = .ok P
  rw [hcs, exc_ok_bind]
  show CBC.decrypt m cs.flatten = .ok P
  have e2 : CBC.decrypt m cs.flatten
      = (if ivFalsy m.iv then .error .missingIV
        else (cbcDecBlocks m.des (m.iv.getD [])
            (_get_blocks m.block_size_bytes cs.flatten) >>=
          fun ps => pure (unpad ps.flatten m.block_size_bytes))) := rfl
  rw [e2, if_neg (by simp [hfalse]), hbsb, hiv]
  show (cbcDecBlocks m.des ivb (_get_blocks 8 cs.flatten) >>=
    fun ps => pure (unpad ps.flatten 8)) = .ok P
  rw [blocks_join cs (fun c hc => (hprops c hc).1), hdec, exc_ok_bind]
  rw [blocks_flatten _ (pad_mod P), unpad_pad]
  rfl

theorem CFB_mode_roundtrip (m : BaseMode) (ivb : List Nat)
    (hbsb : m.block_size_bytes = 8) (hiv : m.iv = some ivb)
    (hkeys : m.des.subkeys.length = m.des.rounds)
    (hiv8 : ivb.length = 8)
    (P : List Nat) (hP : ∀ x ∈ P, x < 256) :
    (CFB.encrypt m P).bind (CFB.decrypt m) = .ok P := by
  have hfalse : ivFalsy m.iv = false := by rw [hiv]; exact ivFalsy_some ivb hiv8
  obtain ⟨cs, hcs, hlen, hprops, hdec⟩ :=
    cfb_blocks_roundtrip m.des hkeys
      (_get_blocks 8 (pad P 8)) ivb
      (fun b hb => blocks_length8 _ (pad_mod P) b hb) hiv8
  have e1 : CFB.encrypt m P
      = (if ivFalsy m.iv then .error .missingIV
        else (cfbEncBlocks m.des (m.iv.getD [])
            (_get_blocks m.block_size_bytes (pad P m.block_size_bytes)) >>=
          fun cs => pure cs.flatten)) := rfl
  rw [e1, if_neg (by simp [hfalse]), hbsb, hiv]
  show (cfbEncBlocks m.des ivb (_get_blocks 8 (pad P 8)) >>=
    fun cs => pure cs.flatten).bind (CFB.decrypt m) = .ok P
  rw [hcs, exc_ok_bind]
  show CFB.decrypt m cs.flatten = .ok P
  have e2 : CFB.decrypt m cs.flatten
      = (if ivFalsy m.iv then .error .missingIV
        else (cfbDecBlocks m.des (m.iv.getD [])
            (_get_blocks m.block_size_bytes cs.flatten) >>=
          fun ps => pure (unpad ps.flatten m.block_size_bytes))) := rfl
  rw [e2, if_neg (by simp [hfalse]), hbsb, hiv]
  show (cfbDecBlocks m.des ivb (_get_blocks 8 cs.flatten) >>=
    fun ps => pure (unpad ps.flatten 8)) = .ok P
  rw [blocks_join cs (fun c hc => hprops c hc), hdec, exc_ok_bind]
  rw [blocks_flatten _ (pad_mod P), unpad_pad]
  rfl

/-! ### CTR characterization and overflow -/

theorem toBytesBE_length (n : Nat) : (toBytesBE 8 n).length = 8 := by
  simp [toBytesBE]

theorem int_to_bytes_ok (n : Nat) (h : n < 256 ^ 8) :
    int_to_bytes 8 n = .ok (toBytesBE 8 n) := by
  unfold int_to_bytes
  rw [if_neg (by omega)]

theorem int_to_bytes_overflow (n : Nat) (h : 256 ^ 8 ≤ n) :
    int_to_bytes 8 n = .error .overflow := by
  unfold int_to_bytes
  rw [if_pos h]

/-- CTR keystream characterization: block `i` of the output is the block
xored with the encryption of the big-endian rendering of `counter + i`,
independently of every other block. -/
theorem ctr_blocks_char (d : DES) (hkeys : d.subkeys.length = d.rounds) :
    ∀ bs : List (List Nat), ∀ counter : Nat,
    (∀ b ∈ bs, b.length = 8) → counter + bs.length ≤ 256 ^ 8 →
    ∃ cs, ctrEncBlocks d 8 counter bs = .ok cs
      ∧ cs.length = bs.length
      ∧ (∀ c ∈ cs, c.length = 8)
      ∧ ∀ i, i < bs.length →
          cs.getD i [] = List.zipWith (fun p o => p ^^^ o) (bs.getD i [])
            (processCore d (toBytesBE 8 (counter + i)) false) := by
  intro bs
  induction bs with
  | nil =>
    exact fun counter _ _ => ⟨[], rfl, rfl, by simp, fun i hi => absurd hi (by simp)⟩
  | cons b rest ih =>
    intro counter h hov
    have hb8 : b.length = 8 := h b (by simp)
    simp only [List.length_cons] at hov
    have hclt : counter < 256 ^ 8 := by omega
    have ho8 : (processCore d (toBytesBE 8 counter) false).length = 8 :=
      processCore_length d hkeys _ (toBytesBE_length counter) false
    obtain ⟨cs, hcs, hlen, hprops, hchar⟩ :=
      ih (counter + 1) (fun y hy => h y (by simp [hy])) (by omega)
    refine ⟨List.zipWith (fun p o => p ^^^ o) b
        (processCore d (toBytesBE 8 counter) false) :: cs,
      ?_, by simp [hlen], ?_, ?_⟩
    · show (int_to_bytes 8 counter >>= fun counter_block =>
        encrypt_block d counter_block >>= fun ob =>
        ctrEncBlocks d 8 (counter + 1) rest >>= fun tail =>
        pure (List.zipWith (fun p o => p ^^^ o) b ob :: tail)) = _
      rw [int_to_bytes_ok counter hclt, exc_ok_bind,
        encrypt_block_ok d _ (toBytesBE_length counter), exc_ok_bind,
        hcs, exc_ok_bind]
      rfl
    · intro c hc
      rcases List.mem_cons.mp hc with h1 | h1
      · subst h1
        rw [List.length_zipWith, hb8, ho8]
        simp
      · exact hprops c h1
    · intro i hi
      cases i with
      | zero => simp
      | succ j =>
        simp only [List.getD_cons_succ, List.length_cons] at *
        rw [hchar j (by omega)]
        rw [show counter + (j + 1) = counter + 1 + j by omega]

/-- CTR raises `OverflowError` as soon as the running counter reaches
`2 ^ 64`; it never wraps. -/
theorem ctr_blocks_overflow (d : DES) :
    ∀ bs : List (List Nat), ∀ counter k : Nat,
    k < bs.length → 256 ^ 8 ≤ counter + k →
    ctrEncBlocks d 8 counter bs = .error .overflow := by
  intro bs
  induction bs with
  | nil => intro counter k hk _; simp at hk
  | cons b rest ih =>
    intro counter k hk hov
    by_cases hc : 256 ^ 8 ≤ counter
    · show (int_to_bytes 8 counter >>= fun counter_block =>
        encrypt_block d counter_block >>= fun ob =>
        ctrEncBlocks d 8 (counter + 1) rest >>= fun tail =>
        pure (List.zipWith (fun p o => p ^^^ o) b ob :: tail)) = _
      rw [int_to_bytes_overflow counter hc, exc_err_bind]
    · have hk0 : k ≠ 0 := by
        intro h0
        subst h0
        simp at hov
        omega
      obtain ⟨j, rfl⟩ : ∃ j, k = j + 1 := ⟨k - 1, by omega⟩
      simp only [List.length_cons] at hk
      show (int_to_bytes 8 counter >>= fun counter_block =>
        encrypt_block d counter_block >>= fun ob =>
        ctrEncBlocks d 8 (counter + 1) rest >>= fun tail =>
        pure (List.zipWith (fun p o => p ^^^ o) b ob :: tail)) = _
      rw [int_to_bytes_ok counter (by omega), exc_ok_bind,
        encrypt_block_ok d _ (toBytesBE_length counter), exc_ok_bind,
        ih (counter + 1) j (by omega) (by omega), exc_err_bind]

/-! ### Encrypt-path output lengths (padding applied before splitting) -/

theorem padded_blocks_flatten_length (P : List Nat) :
    ∀ cs : List (List Nat), cs.length = (_get_blocks 8 (pad P 8)).length →
    (∀ c ∈ cs, c.length = 8) → cs.flatten.length = (pad P 8).length := by
  intro cs hlen h8
  rw [flatten_length_of8 cs h8, hlen, blocks_count _ (pad_mod P)]
  have := pad_mod P
  omega

theorem OFB_encrypt_length (m : BaseMode) (ivb : List Nat)
    (hbsb : m.block_size_bytes = 8) (hiv : m.iv = some ivb)
    (hkeys : m.des.subkeys.length = m.des.rounds) (hiv8 : ivb.length = 8)
    (P : List Nat) :
    ∃ C, OFB.encrypt m P = .ok C ∧ C.length = (pad P 8).length := by
  have hfalse : ivFalsy m.iv = false := by rw [hiv]; exact ivFalsy_some ivb hiv8
  obtain ⟨cs, hcs, hlen, hprops⟩ :=
    ofb_blocks_ok m.des hkeys (_get_blocks 8 (pad P 8)) ivb
      (fun b hb => blocks_length8 _ (pad_mod P) b hb) hiv8
  have e1 : OFB.encrypt m P
      = (if ivFalsy m.iv then .error .missingIV
        else (ofbEncBlocks m.des (m.iv.getD [])
            (_get_blocks m.block_size_bytes (pad P m.block_size_bytes)) >>=
          fun cs => pure cs.flatten)) := rfl
  rw [e1, if_neg (by simp [hfalse]), hbsb, hiv]
  refine ⟨cs.flatten, ?_, padded_blocks_flatten_length P cs hlen hprops⟩
  show (ofbEncBlocks m.des ivb (_get_blocks 8 (pad P 8)) >>=
    fun cs => pure cs.flatten) = _
  rw [hcs, exc_ok_bind]
  rfl

theorem CTR_encrypt_ok (m : BaseMode) (ivb : List Nat)
    (hbsb : m.block_size_bytes = 8) (hiv : m.iv = some ivb)
    (hkeys : m.des.subkeys.length = m.des.rounds) (hiv8 : ivb.length = 8)
    (P : List Nat)
    (hov : int_from_bytes ivb + (pad P 8).length / 8 ≤ 256 ^ 8) :
    ∃ cs : List (List Nat), CTR.encrypt m P = .ok cs.flatten
      ∧ cs.length = (_get_blocks 8 (pad P 8)).length
      ∧ (∀ c ∈ cs, c.length = 8)
      ∧ ∀ i, i < (_get_blocks 8 (pad P 8)).length →
          cs.getD i [] = List.zipWith (fun p o => p ^^^ o)
            ((_get_blocks 8 (pad P 8)).getD i [])
            (processCore m.des (toBytesBE 8 (int_from_bytes ivb + i)) false) := by
  have hfalse : ivFalsy m.iv = false := by rw [hiv]; exact ivFalsy_some ivb hiv8
  have hcount : (_get_blocks 8 (pad P 8)).length = (pad P 8).length / 8 :=
    blocks_count _ (pad_mod P)
  obtain ⟨cs, hcs, hlen, hprops, hchar⟩ :=
    ctr_blocks_char m.des hkeys (_get_blocks 8 (pad P 8)) (int_from_bytes ivb)
      (fun b hb => blocks_length8 _ (pad_mod P) b hb) (by omega)
  have e1 : CTR.encrypt m P
      = (if ivFalsy m.iv then .error .missingIV
        else (ctrEncBlocks m.des m.block_size_bytes
            (int_from_bytes (m.iv.getD []))
            (_get_blocks m.block_size_bytes (pad P m.block_size_bytes)) >>=
          fun cs => pure cs.flatten)) := rfl
  rw [e1, if_neg (by simp [hfalse]), hbsb, hiv]
  refine ⟨cs, ?_, hlen, hprops, hchar⟩
  show (ctrEncBlocks m.des 8 (int_from_bytes ivb) (_get_blocks 8 (pad P 8)) >>=
    fun cs => pure cs.flatten) = _
  rw [hcs, exc_ok_bind]
  rfl

theorem ECB_encrypt_length (m : BaseMode) (hbsb : m.block_size_bytes = 8)
    (hkeys : m.des.subkeys.length = m.des.rounds)
    (P : List Nat) (hP : ∀ x ∈ P, x < 256) :
    ∃ C, ECB.encrypt m P = .ok C ∧ C.length = (pad P 8).length := by
  obtain ⟨cs, hcs, hlen, hprops, _⟩ :=
    ecb_blocks_roundtrip m.des hkeys (_get_blocks 8 (pad P 8))
      (padded_blocks_good P hP)
  have e1 : ECB.encrypt m P
      = (ecbEncBlocks m.des
          (_get_blocks m.block_size_bytes (pad P m.block_size_bytes)) >>=
          fun encrypted => pure encrypted.flatten) := rfl
  rw [e1, hbsb]
  refine ⟨cs.flatten, ?_,
    padded_blocks_flatten_length P cs hlen (fun c hc => (hprops c hc).1)⟩
  rw [hcs, exc_ok_bind]
  rfl

theorem CBC_encrypt_length (m : BaseMode) (ivb : List Nat)
    (hbsb : m.block_size_bytes = 8) (hiv : m.iv = some ivb)
    (hkeys : m.des.subkeys.length = m.des.rounds)
    (hiv8 : ivb.length = 8) (hivlt : ∀ x ∈ ivb, x < 256)
    (P : List Nat) (hP : ∀ x ∈ P, x < 256) :
    ∃ C, CBC.encrypt m P = .ok C ∧ C.length = (pad P 8).length := by
  have hfalse : ivFalsy m.iv = false := by rw [hiv]; exact ivFalsy_some ivb hiv8
  obtain ⟨cs, hcs, hlen, hprops, _⟩ :=
    cbc_blocks_roundtrip m.des hkeys (_get_blocks 8 (pad P 8)) ivb
      (padded_blocks_good P hP) hiv8 hivlt
  have e1 : CBC.encrypt m P
      = (if ivFalsy m.iv then .error .missingIV
        else (cbcEncBlocks m.des (m.iv.getD [])
            (_get_blocks m.block_size_bytes (pad P m.block_size_bytes)) >>=
          fun cs => pure cs.flatten)) := rfl
  rw [e1, if_neg (by simp [hfalse]), hbsb, hiv]
  refine ⟨cs.flatten, ?_,
    padded_blocks_flatten_length P cs hlen (fun c hc => (hprops c hc).1)⟩
  show (cbcEncBlocks m.des ivb (_get_blocks 8 (pad P 8)) >>=
    fun cs => pure cs.flatten) = _
  rw [hcs, exc_ok_bind]
  rfl

theorem CFB_encrypt_length (m : BaseMode) (ivb : List Nat)
    (hbsb : m.block_size_bytes = 8) (hiv : m.iv = some ivb)
    (hkeys : m.des.subkeys.length = m.des.rounds) (hiv8 : ivb.length = 8)
    (P : List Nat) :
    ∃ C, CFB.encrypt m P = .ok C ∧ C.length = (pad P 8).length := by
  have hfalse : ivFalsy m.iv = false := by rw [hiv]; exact ivFalsy_some ivb hiv8
  obtain ⟨cs, hcs, hlen, hprops, _⟩ :=
    cfb_blocks_roundtrip m.des hkeys (_get_blocks 8 (pad P 8)) ivb
      (fun b hb => blocks_length8 _ (pad_mod P) b hb) hiv8
  have e1 : CFB.encrypt m P
      = (if ivFalsy m.iv then .error .missingIV
        else (cfbEncBlocks m.des (m.iv.getD [])
            (_get_blocks m.block_size_bytes (pad P m.block_size_bytes)) >>=
          fun cs => pure cs.flatten)) := rfl
  rw [e1, if_neg (by simp [hfalse]), hbsb, hiv]
  refine ⟨cs.flatten, ?_, padded_blocks_flatten_length P cs hlen hprops⟩
  show (cfbEncBlocks m.des ivb (_get_blocks 8 (pad P 8)) >>=
    fun cs => pure cs.flatten) = _
  rw [hcs, exc_ok_bind]
  rfl

theorem CTR_encrypt_length (m : BaseMode) (ivb : List Nat)
    (hbsb : m.block_size_bytes = 8) (hiv : m.iv = some ivb)
    (hkeys : m.des.subkeys.length = m.des.rounds) (hiv8 : ivb.length = 8)
    (P : List Nat)
    (hov : int_from_bytes ivb + (pad P 8).length / 8 ≤ 256 ^ 8) :
    ∃ C, CTR.encrypt m P = .ok C ∧ C.length = (pad P 8).length := by
  obtain ⟨cs, hcs, hlen, hprops, _⟩ :=
    CTR_encrypt_ok m ivb hbsb hiv hkeys hiv8 P hov
  exact ⟨cs.flatten, hcs, padded_blocks_flatten_length P cs hlen hprops⟩

/-- `OFB.decrypt (OFB.encrypt P)` does not round-trip: the delegated call
pads the ciphertext again (one extra block, since the ciphertext length is a
multiple of 8) and never strips, so the output is exactly 8 bytes longer than
the padded plaintext. -/
theorem OFB_roundtrip_inflates (m : BaseMode) (ivb : List Nat)
    (hbsb : m.block_size_bytes = 8) (hiv : m.iv = some ivb)
    (hkeys : m.des.subkeys.length = m.des.rounds) (hiv8 : ivb.length = 8)
    (P : List Nat) :
    ∃ C D, OFB.encrypt m P = .ok C ∧ OFB.decrypt m C = .ok D
      ∧ D.length = (pad P 8).length + 8 := by
  obtain ⟨C, hC, hClen⟩ := OFB_encrypt_length m ivb hbsb hiv hkeys hiv8 P
  obtain ⟨D, hD, hDlen⟩ := OFB_encrypt_length m ivb hbsb hiv hkeys hiv8 C
  refine ⟨C, D, hC, hD, ?_⟩
  rw [hDlen, pad_length C, hClen]
  have := pad_mod P
  omega

/-! ### Key-schedule closed form (claim C6 groundwork) -/

/-- Total rotation applied to the 28-bit halves after rounds
`i, i+1, …, i+m-1` of the schedule loop (the rotation table cycles with
period 16 and rotations accumulate across rounds). -/
def rotSum (i m : Nat) : Nat :=
  ((List.range m).map (fun j => ROTATIONS.getD ((i + j) % 16) 0)).sum

theorem rotate_left_eq_rotate (s : List Bool) (n : Nat) :
    rotate_left s n = s.rotate n := by
  cases s with
  | nil => simp [rotate_left]
  | cons a t =>
    rw [rotate_left, ← List.rotate_mod]
    exact (List.rotate_eq_drop_append_take
      (le_of_lt (Nat.mod_lt _ (by simp)))).symm

theorem rotSum_one (i : Nat) : rotSum i 1 = ROTATIONS.getD (i % 16) 0 := by
  show ((List.range 1).map (fun j => ROTATIONS.getD ((i + j) % 16) 0)).sum = _
  rw [show List.range 1 = [0] from rfl, List.map_cons, List.map_nil,
    List.sum_cons, List.sum_nil, Nat.add_zero, Nat.add_zero]

theorem rotSum_succ_head (i m : Nat) :
    rotSum i (m + 1) = ROTATIONS.getD (i % 16) 0 + rotSum (i + 1) m := by
  unfold rotSum
  rw [List.range_succ_eq_map]
  simp only [List.map_cons, List.map_map, List.sum_cons, Nat.add_zero]
  congr 1
  apply congrArg
  apply List.map_congr_left
  intro j _
  simp only [Function.comp]
  congr 2
  omega

theorem subkeysLoop_getD : ∀ (n i : Nat) (C D : List Bool) (k : Nat), k < n →
    (subkeysLoop n i C D).getD k [] =
      _permute (C.rotate (rotSum i (k + 1)) ++ D.rotate (rotSum i (k + 1))) PC_2 := by
  intro n
  induction n with
  | zero => intro i C D k hk; simp at hk
  | succ n ih =>
    intro i C D k hk
    have hlen : ROTATIONS.length = 16 := rfl
    cases k with
    | zero =>
      show _permute
        (rotate_left C (ROTATIONS.getD (i % ROTATIONS.length) 0)
          ++ rotate_left D (ROTATIONS.getD (i % ROTATIONS.length) 0)) PC_2 = _
      rw [rotSum_one, hlen, rotate_left_eq_rotate, rotate_left_eq_rotate]
    | succ j =>
      show (subkeysLoop n (i + 1)
          (rotate_left C (ROTATIONS.getD (i % ROTATIONS.length) 0))
          (rotate_left D (ROTATIONS.getD (i % ROTATIONS.length) 0))).getD j []
        = _
      rw [ih (i + 1) _ _ j (by omega)]
      rw [rotate_left_eq_rotate, rotate_left_eq_rotate,
        List.rotate_rotate, List.rotate_rotate, hlen]
      rw [show ROTATIONS.getD (i % 16) 0 + rotSum (i + 1) (j + 1)
        = rotSum i (j + 1 + 1) from (rotSum_succ_head i (j + 1)).symm]

theorem subkeysLoop_width : ∀ (n i : Nat) (C D : List Bool),
    ∀ sk ∈ subkeysLoop n i C D, sk.length = 48 := by
  intro n
  induction n with
  | zero => intro i C D sk hsk; simp [subkeysLoop] at hsk
  | succ n ih =>
    intro i C D sk hsk
    simp only [subkeysLoop, List.mem_cons] at hsk
    rcases hsk with h | h
    · subst h
      show (List.map _ PC_2).length = 48
      rw [List.length_map]
      rfl
    · exact ih _ _ _ sk h

/-! ### base64 round trip (claim C9 groundwork) -/

theorem b64index_char_fin : ∀ v : Fin 64, b64index (b64chars.getD v.val 0) = v.val := by
  decide

theorem b64char_ne_fin : ∀ v : Fin 64, (b64chars.getD v.val 0 == 61) = false := by
  decide

theorem b64index_char (v : Nat) (h : v < 64) :
    b64index (b64chars.getD v 0) = v :=
  b64index_char_fin ⟨v, h⟩

theorem b64char_ne (v : Nat) (h : v < 64) :
    (b64chars.getD v 0 == 61) = false :=
  b64char_ne_fin ⟨v, h⟩

theorem b64decode_def (s : List Nat) :
    b64decode s = (b64decodeCore (s.map (fun c => if c == 61 then 65 else c))).take
      (s.length / 4 * 3 - (s.filter (fun c => c == 61)).length) := rfl

theorem b64encode_filter : ∀ n : Nat, ∀ P : List Nat, P.length ≤ n →
    (∀ b ∈ P, b < 256) →
    ((b64encode P).filter (fun c => c == 61)).length ≤ 2
      ∧ (P ≠ [] → 4 ≤ (b64encode P).length) := by
  intro n
  induction n with
  | zero =>
    intro P hle _
    have : P = [] := List.length_eq_zero.mp (Nat.le_zero.mp hle)
    subst this
    exact ⟨by simp [b64encode], fun h => absurd rfl h⟩
  | succ n ih =>
    intro P hle hP
    cases P with
    | nil => exact ⟨by simp [b64encode], fun h => absurd rfl h⟩
    | cons b1 P1 =>
      have hb1 : b1 < 256 := hP b1 (by simp)
      cases P1 with
      | nil =>
        refine ⟨?_, fun _ => by simp [b64encode]⟩
        show ((b64encode [b1]).filter (fun c => c == 61)).length ≤ 2
        rw [show b64encode [b1]
          = [b64chars.getD (b1 / 4) 0, b64chars.getD (b1 % 4 * 16) 0, 61, 61] from rfl]
        rw [List.filter_cons, List.filter_cons, List.filter_cons, List.filter_cons]
        rw [b64char_ne (b1 / 4) (by omega), b64char_ne (b1 % 4 * 16) (by omega)]
        simp
      | cons b2 P2 =>
        have hb2 : b2 < 256 := hP b2 (by simp)
        cases P2 with
        | nil =>
          refine ⟨?_, fun _ => by simp [b64encode]⟩
          show ((b64encode [b1, b2]).filter (fun c => c == 61)).length ≤ 2
          rw [show b64encode [b1, b2]
            = [b64chars.getD (b1 / 4) 0, b64chars.getD (b1 % 4 * 16 + b2 / 16) 0,
               b64chars.getD (b2 % 16 * 4) 0, 61] from rfl]
          rw [List.filter_cons, List.filter_cons, List.filter_cons, List.filter_cons]
          rw [b64char_ne (b1 / 4) (by omega), b64char_ne (b1 % 4 * 16 + b2 / 16) (by omega),
            b64char_ne (b2 % 16 * 4) (by omega)]
          simp
        | cons b3 rest =>
          have hb3 : b3 < 256 := hP b3 (by simp)
          have hrest : ∀ b ∈ rest, b < 256 := fun b hb => hP b (by simp [hb])
          have hlen : rest.length ≤ n := by
            simp only [List.length_cons] at hle
            omega
          obtain ⟨hcnt, _⟩ := ih rest hlen hrest
          refine ⟨?_, fun _ => by simp [b64encode]⟩
          rw [show b64encode (b1 :: b2 :: b3 :: rest)
            = b64chars.getD (b1 / 4) 0 ::
              b64chars.getD (b1 % 4 * 16 + b2 / 16) 0 ::
              b64chars.getD (b2 % 16 * 4 + b3 / 64) 0 ::
              b64chars.getD (b3 % 64) 0 :: b64encode rest from rfl]
          rw [List.filter_cons, List.filter_cons, List.filter_cons, List.filter_cons]
          rw [b64char_ne (b1 / 4) (by omega), b64char_ne (b1 % 4 * 16 + b2 / 16) (by omega),
            b64char_ne (b2 % 16 * 4 + b3 / 64) (by omega), b64char_ne (b3 % 64) (by omega)]
          simpa using hcnt

theorem if61_ne (c : Nat) (h : (c == 61) = false) :
    (if c == 61 then 65 else c) = c := by
  simp [h]

theorem b64_roundtrip_aux : ∀ n : Nat, ∀ P : List Nat, P.length ≤ n →
    (∀ b ∈ P, b < 256) → b64decode (b64encode P) = P := by
  intro n
  induction n with
  | zero =>
    intro P hle _
    have : P = [] := List.length_eq_zero.mp (Nat.le_zero.mp hle)
    subst this
    rfl
  | succ n ih =>
    intro P hle hP
    cases P with
    | nil => rfl
    | cons b1 P1 =>
      have hb1 : b1 < 256 := hP b1 (by simp)
      cases P1 with
      | nil =>
        have hn1 : (b64chars.getD (b1 / 4) 0 == 61) = false :=
          b64char_ne _ (by omega)
        have hn2 : (b64chars.getD (b1 % 4 * 16) 0 == 61) = false :=
          b64char_ne _ (by omega)
        rw [show b64encode [b1]
          = [b64chars.getD (b1 / 4) 0, b64chars.getD (b1 % 4 * 16) 0, 61, 61] from rfl]
        rw [b64decode_def]
        rw [List.filter_cons, List.filter_cons, List.filter_cons, List.filter_cons,
          hn1, hn2]
        rw [List.map_cons, List.map_cons, List.map_cons, List.map_cons, List.map_nil,
          if61_ne _ hn1, if61_ne _ hn2]
        rw [show (if (61 : Nat) == 61 then 65 else 61) = 65 from rfl]
        rw [show b64decodeCore [b64chars.getD (b1 / 4) 0, b64chars.getD (b1 % 4 * 16) 0,
            65, 65]
          = [b64index (b64chars.getD (b1 / 4) 0) * 4
              + b64index (b64chars.getD (b1 % 4 * 16) 0) / 16,
             b64index (b64chars.getD (b1 % 4 * 16) 0) % 16 * 16 + b64index 65 / 4,
             b64index 65 % 4 * 64 + b64index 65] from rfl]
        rw [b64index_char (b1 / 4) (by omega), b64index_char (b1 % 4 * 16) (by omega)]
        norm_num
        omega
      | cons b2 P2 =>
        have hb2 : b2 < 256 := hP b2 (by simp)
        cases P2 with
        | nil =>
          have hn1 : (b64chars.getD (b1 / 4) 0 == 61) = false :=
            b64char_ne _ (by omega)
          have hn2 : (b64chars.getD (b1 % 4 * 16 + b2 / 16) 0 == 61) = false :=
            b64char_ne _ (by omega)
          have hn3 : (b64chars.getD (b2 % 16 * 4) 0 == 61) = false :=
            b64char_ne _ (by omega)
          rw [show b64encode [b1, b2]
            = [b64chars.getD (b1 / 4) 0, b64chars.getD (b1 % 4 * 16 + b2 / 16) 0,
               b64chars.getD (b2 % 16 * 4) 0, 61] from rfl]
          rw [b64decode_def]
          rw [List.filter_cons, List.filter_cons, List.filter_cons, List.filter_cons,
            hn1, hn2, hn3]
          rw [List.map_cons, List.map_cons, List.map_cons, List.map_cons, List.map_nil,
            if61_ne _ hn1, if61_ne _ hn2, if61_ne _ hn3]
          rw [show (if (61 : Nat) == 61 then 65 else 61) = 65 from rfl]
          rw [show b64decodeCore [b64chars.getD (b1 / 4) 0,
              b64chars.getD (b1 % 4 * 16 + b2 / 16) 0,
              b64chars.getD (b2 % 16 * 4) 0, 65]
            = [b64index (b64chars.getD (b1 / 4) 0) * 4
                + b64index (b64chars.getD (b1 % 4 * 16 + b2 / 16) 0) / 16,
               b64index (b64chars.getD (b1 % 4 * 16 + b2 / 16) 0) % 16 * 16
                + b64index (b64chars.getD (b2 % 16 * 4) 0) / 4,
               b64index (b64chars.getD (b2 % 16 * 4) 0) % 4 * 64
                + b64index 65] from rfl]
          rw [b64index_char (b1 / 4) (by omega),
            b64index_char (b1 % 4 * 16 + b2 / 16) (by omega),
            b64index_char (b2 % 16 * 4) (by omega)]
          norm_num
          exact ⟨by omega, by omega⟩
        | cons b3 rest =>
          have hb3 : b3 < 256 := hP b3 (by simp)
          have hrest : ∀ b ∈ rest, b < 256 := fun b hb => hP b (by simp [hb])
          have hrlen : rest.length ≤ n := by
            simp only [List.length_cons] at hle
            omega
          have hn1 : (b64chars.getD (b1 / 4) 0 == 61) = false :=
            b64char_ne _ (by omega)
          have hn2 : (b64chars.getD (b1 % 4 * 16 + b2 / 16) 0 == 61) = false :=
            b64char_ne _ (by omega)
          have hn3 : (b64chars.getD (b2 % 16 * 4 + b3 / 64) 0 == 61) = false :=
            b64char_ne _ (by omega)
          have hn4 : (b64chars.getD (b3 % 64) 0 == 61) = false :=
            b64char_ne _ (by omega)
          have hihyp := ih rest hrlen hrest
          rw [b64decode_def] at hihyp
          obtain ⟨hcnt, _⟩ := b64encode_filter rest.length rest (le_refl _) hrest
          rw [show b64encode (b1 :: b2 :: b3 :: rest)
            = b64chars.getD (b1 / 4) 0 ::
              b64chars.getD (b1 % 4 * 16 + b2 / 16) 0 ::
              b64chars.getD (b2 % 16 * 4 + b3 / 64) 0 ::
              b64chars.getD (b3 % 64) 0 :: b64encode rest from rfl]
          rw [b64decode_def]
          rw [List.filter_cons, List.filter_cons, List.filter_cons, List.filter_cons,
            hn1, hn2, hn3, hn4]
          simp only [Bool.false_eq_true, if_false]
          rw [List.map_cons, List.map_cons, List.map_cons, List.map_cons,
            if61_ne _ hn1, if61_ne _ hn2, if61_ne _ hn3, if61_ne _ hn4]
          rw [show ∀ r : List Nat, b64decodeCore (b64chars.getD (b1 / 4) 0 ::
              b64chars.getD (b1 % 4 * 16 + b2 / 16) 0 ::
              b64chars.getD (b2 % 16 * 4 + b3 / 64) 0 ::
              b64chars.getD (b3 % 64) 0 :: r)
            = (b64index (b64chars.getD (b1 / 4) 0) * 4
                + b64index (b64chars.getD (b1 % 4 * 16 + b2 / 16) 0) / 16) ::
              (b64index (b64chars.getD (b1 % 4 * 16 + b2 / 16) 0) % 16 * 16
                + b64index (b64chars.getD (b2 % 16 * 4 + b3 / 64) 0) / 4) ::
              (b64index (b64chars.getD (b2 % 16 * 4 + b3 / 64) 0) % 4 * 64
                + b64index (b64chars.getD (b3 % 64) 0)) :: b64decodeCore r
            from fun r => rfl]
          rw [b64index_char (b1 / 4) (by omega),
            b64index_char (b1 % 4 * 16 + b2 / 16) (by omega),
            b64index_char (b2 % 16 * 4 + b3 / 64) (by omega),
            b64index_char (b3 % 64) (by omega)]
          rw [show b1 / 4 * 4 + (b1 % 4 * 16 + b2 / 16) / 16 = b1 by omega]
          rw [show (b1 % 4 * 16 + b2 / 16) % 16 * 16
            + (b2 % 16 * 4 + b3 / 64) / 4 = b2 by omega]
          rw [show (b2 % 16 * 4 + b3 / 64) % 4 * 64 + b3 % 64 = b3 by omega]
          simp only [List.length_cons]
          rw [show (b64encode rest).length + 1 + 1 + 1 + 1
            = 4 + (b64encode rest).length by omega]
          rw [show (4 + (b64encode rest).length) / 4 * 3
              - ((b64encode rest).filter (fun c => c == 61)).length
            = 3 + ((b64encode rest).length / 4 * 3
              - ((b64encode rest).filter (fun c => c == 61)).length) from by
            rcases Nat.eq_zero_or_pos (b64encode rest).length with hz | hpos
            · rw [hz]
              have : ((b64encode rest).filter (fun c => c == 61)).length = 0 := by
                rw [List.length_eq_zero.mp hz]
                rfl
              rw [this]
            · have h4 : 4 ≤ (b64encode rest).length := by
                obtain ⟨_, h4⟩ := b64encode_filter rest.length rest (le_refl _) hrest
                apply h4
                intro hcontra
                rw [hcontra] at hpos
                simp [b64encode] at hpos
              have : 3 ≤ (b64encode rest).length / 4 * 3 := by omega
              omega]
          rw [show 3 + ((b64encode rest).length / 4 * 3
              - ((b64encode rest).filter (fun c => c == 61)).length)
            = Nat.succ (Nat.succ (Nat.succ ((b64encode rest).length / 4 * 3
              - ((b64encode rest).filter (fun c => c == 61)).length))) by omega]
          rw [List.take_succ_cons, List.take_succ_cons, List.take_succ_cons]
          rw [hihyp]

instance {ε α : Type} [DecidableEq ε] [DecidableEq α] :
    DecidableEq (Except ε α) := fun a b =>
  match a, b with
  | .error e, .error f =>
    if h : e = f then .isTrue (by rw [h])
    else .isFalse (fun hc => h (Except.error.inj hc))
  | .ok x, .ok y =>
    if h : x = y then .isTrue (by rw [h])
    else .isFalse (fun hc => h (Except.ok.inj hc))
  | .error _, .ok _ => .isFalse (fun hc => Except.noConfusion hc)
  | .ok _, .error _ => .isFalse (fun hc => Except.noConfusion hc)

theorem CTR_encrypt_overflow (m : BaseMode) (ivb : List Nat)
    (hbsb : m.block_size_bytes = 8) (hiv : m.iv = some ivb)
    (hiv8 : ivb.length = 8) (P : List Nat) (k : Nat)
    (hk : k < (pad P 8).length / 8)
    (hov : 256 ^ 8 ≤ int_from_bytes ivb + k) :
    CTR.encrypt m P = .error .overflow := by
  have hfalse : ivFalsy m.iv = false := by rw [hiv]; exact ivFalsy_some ivb hiv8
  have e1 : CTR.encrypt m P
      = (if ivFalsy m.iv then .error .missingIV
        else (ctrEncBlocks m.des m.block_size_bytes
            (int_from_bytes (m.iv.getD []))
            (_get_blocks m.block_size_bytes (pad P m.block_size_bytes)) >>=
          fun cs => pure cs.flatten)) := rfl
  rw [e1, if_neg (by simp [hfalse]), hbsb, hiv]
  show (ctrEncBlocks m.des 8 (int_from_bytes ivb) (_get_blocks 8 (pad P 8)) >>=
    fun cs => pure cs.flatten) = _
  rw [ctr_blocks_overflow m.des (_get_blocks 8 (pad P 8)) (int_from_bytes ivb) k
    (by rw [blocks_count _ (pad_mod P)]; exact hk) hov, exc_err_bind]

/-! ### Claim theorems -/

/-- C2: for every engine — any key, any round count, any block-size/keylen
parameters — and every 8-byte block of genuine bytes,
`decrypt_block (encrypt_block B) = B`.  The second conjunct exhibits that the
decrypt direction is exactly the same round loop run over the *reversed*
subkey list, with the output assembled as final-R ++ final-L and no final
half-swap (this is the whole body of `_process_block`). -/
theorem claim_C2_block_involution (key B : List Nat) (bs2 r kl : Nat)
    (iv : Option (List Nat)) (hB8 : B.length = 8) (hBlt : ∀ x ∈ B, x < 256) :
    (encrypt_block (DES.make key bs2 r kl iv) B).bind
      (decrypt_block (DES.make key bs2 r kl iv)) = .ok B
    ∧ (∀ B' : List Nat, processCore (DES.make key bs2 r kl iv) B' true
        = bit_string_to_bytes
            ((desRoundsLoop (DES.make key bs2 r kl iv).subkeys.reverse r
                ((bytes_to_bit_string B').take 32, (bytes_to_bit_string B').drop 32)).2
              ++ (desRoundsLoop (DES.make key bs2 r kl iv).subkeys.reverse r
                ((bytes_to_bit_string B').take 32, (bytes_to_bit_string B').drop 32)).1)) :=
  ⟨process_block_roundtrip _ (make_subkeys_length key bs2 r kl iv) B hB8 hBlt,
    fun _ => rfl⟩

/-- Witness for C2 at key "MYSECRET", 16 rounds, block "HELLOALI". -/
theorem claim_C2_witness :
    (encrypt_block (DES.make [77, 89, 83, 69, 67, 82, 69, 84] 64 16 64 none)
      [72, 69, 76, 76, 79, 65, 76, 73]).bind
      (decrypt_block (DES.make [77, 89, 83, 69, 67, 82, 69, 84] 64 16 64 none))
      = .ok [72, 69, 76, 76, 79, 65, 76, 73] :=
  (claim_C2_block_involution [77, 89, 83, 69, 67, 82, 69, 84]
    [72, 69, 76, 76, 79, 65, 76, 73] 64 16 64 none (by decide) (by decide)).1

set_option maxRecDepth 100000 in
/-- C1 counterexample: with key "MYSECRET", 8 rounds (inside [8,32]),
IV "12345678" and plaintext "HI", the OFB and CTR round trips fail:
`decrypt` delegates to `encrypt`, so it re-pads the ciphertext and never
strips, returning 16 bytes instead of the original 2. -/
theorem claim_C1_counterexample :
    (OFB.encrypt (BaseMode.make (DES.make [77, 89, 83, 69, 67, 82, 69, 84] 64 8 64
        (some [49, 50, 51, 52, 53, 54, 55, 56]))) [72, 73]).bind
      (OFB.decrypt (BaseMode.make (DES.make [77, 89, 83, 69, 67, 82, 69, 84] 64 8 64
        (some [49, 50, 51, 52, 53, 54, 55, 56])))) ≠ .ok [72, 73]
    ∧ (CTR.encrypt (BaseMode.make (DES.make [77, 89, 83, 69, 67, 82, 69, 84] 64 8 64
        (some [49, 50, 51, 52, 53, 54, 55, 56]))) [72, 73]).bind
      (CTR.decrypt (BaseMode.make (DES.make [77, 89, 83, 69, 67, 82, 69, 84] 64 8 64
        (some [49, 50, 51, 52, 53, 54, 55, 56])))) ≠ .ok [72, 73] := by
  decide

/-- C1 amended: `decrypt(encrypt(P)) = P` holds for ECB, CBC and CFB for
every key, every round count in [8,32], every 8-byte IV and arbitrary byte
strings; it fails for OFB and CTR, whose `decrypt` delegates to `encrypt`
(see the counterexample). -/
theorem claim_C1_mode_roundtrips (key ivb P : List Nat) (r : Nat)
    (hr1 : 8 ≤ r) (hr2 : r ≤ 32) (hiv8 : ivb.length = 8)
    (hivlt : ∀ x ∈ ivb, x < 256) (hP : ∀ x ∈ P, x < 256) :
    (ECB.encrypt (BaseMode.make (DES.make key 64 r 64 (some ivb))) P).bind
      (ECB.decrypt (BaseMode.make (DES.make key 64 r 64 (some ivb)))) = .ok P
    ∧ (CBC.encrypt (BaseMode.make (DES.make key 64 r 64 (some ivb))) P).bind
      (CBC.decrypt (BaseMode.make (DES.make key 64 r 64 (some ivb)))) = .ok P
    ∧ (CFB.encrypt (BaseMode.make (DES.make key 64 r 64 (some ivb))) P).bind
      (CFB.decrypt (BaseMode.make (DES.make key 64 r 64 (some ivb)))) = .ok P :=
  ⟨ECB_mode_roundtrip _ (bsb_of_make key r 64 (some ivb))
      (make_subkeys_length key 64 r 64 (some ivb)) P hP,
    CBC_mode_roundtrip _ ivb (bsb_of_make key r 64 (some ivb)) rfl
      (make_subkeys_length key 64 r 64 (some ivb)) hiv8 hivlt P hP,
    CFB_mode_roundtrip _ ivb (bsb_of_make key r 64 (some ivb)) rfl
      (make_subkeys_length key 64 r 64 (some ivb)) hiv8 P hP⟩

/-- Witness for the amended C1 at key "MYSECRET", 8 rounds, IV "12345678",
plaintext "HI". -/
theorem claim_C1_witness :
    (ECB.encrypt (BaseMode.make (DES.make [77, 89, 83, 69, 67, 82, 69, 84] 64 8 64
        (some [49, 50, 51, 52, 53, 54, 55, 56]))) [72, 73]).bind
      (ECB.decrypt (BaseMode.make (DES.make [77, 89, 83, 69, 67, 82, 69, 84] 64 8 64
        (some [49, 50, 51, 52, 53, 54, 55, 56])))) = .ok [72, 73]
    ∧ (CBC.encrypt (BaseMode.make (DES.make [77, 89, 83, 69, 67, 82, 69, 84] 64 8 64
        (some [49, 50, 51, 52, 53, 54, 55, 56]))) [72, 73]).bind
      (CBC.decrypt (BaseMode.make (DES.make [77, 89, 83, 69, 67, 82, 69, 84] 64 8 64
        (some [49, 50, 51, 52, 53, 54, 55, 56])))) = .ok [72, 73]
    ∧ (CFB.encrypt (BaseMode.make (DES.make [77, 89, 83, 69, 67, 82, 69, 84] 64 8 64
        (some [49, 50, 51, 52, 53, 54, 55, 56]))) [72, 73]).bind
      (CFB.decrypt (BaseMode.make (DES.make [77, 89, 83, 69, 67, 82, 69, 84] 64 8 64
        (some [49, 50, 51, 52, 53, 54, 55, 56])))) = .ok [72, 73] :=
  claim_C1_mode_roundtrips [77, 89, 83, 69, 67, 82, 69, 84]
    [49, 50, 51, 52, 53, 54, 55, 56] [72, 73] 8
    (by decide) (by decide) (by decide) (by decide) (by decide)

set_option maxRecDepth 100000 in
/-- C3 counterexample: `OFB.decrypt` and `CTR.decrypt` (which delegate to
`encrypt`) pad their 8-byte input to 16 bytes and never strip padding, so an
8-byte ciphertext decrypts to 16 bytes — impossible if decrypt stripped
padding and did not pad its input. -/
theorem claim_C3_counterexample :
    (OFB.decrypt (BaseMode.make (DES.make [77, 89, 83, 69, 67, 82, 69, 84] 64 8 64
        (some [49, 50, 51, 52, 53, 54, 55, 56]))) [0, 1, 2, 3, 4, 5, 6, 7]).map
      List.length = .ok 16
    ∧ (CTR.decrypt (BaseMode.make (DES.make [77, 89, 83, 69, 67, 82, 69, 84] 64 8 64
        (some [49, 50, 51, 52, 53, 54, 55, 56]))) [0, 1, 2, 3, 4, 5, 6, 7]).map
      List.length = .ok 16 := by
  decide

/-- C3 amended: every mode pads on the encrypt path before splitting (the
output length is always the padded length); ECB, CBC and CFB strip padding on
decrypt without padding their input (their round trip returns exactly `P`);
but OFB and CTR `decrypt` delegates verbatim to `encrypt`, so it pads its
input and never strips — their round trip returns `(pad P 8).length + 8`
bytes instead of `P`. -/
theorem claim_C3_pad_on_encrypt_strip_on_decrypt (key ivb P : List Nat) (r : Nat)
    (hiv8 : ivb.length = 8) (hivlt : ∀ x ∈ ivb, x < 256) (hP : ∀ x ∈ P, x < 256)
    (hov : int_from_bytes ivb + (pad P 8).length / 8 ≤ 256 ^ 8) :
    ((ECB.encrypt (BaseMode.make (DES.make key 64 r 64 (some ivb))) P).map
      List.length = .ok (pad P 8).length)
    ∧ ((CBC.encrypt (BaseMode.make (DES.make key 64 r 64 (some ivb))) P).map
      List.length = .ok (pad P 8).length)
    ∧ ((CFB.encrypt (BaseMode.make (DES.make key 64 r 64 (some ivb))) P).map
      List.length = .ok (pad P 8).length)
    ∧ ((OFB.encrypt (BaseMode.make (DES.make key 64 r 64 (some ivb))) P).map
      List.length = .ok (pad P 8).length)
    ∧ ((CTR.encrypt (BaseMode.make (DES.make key 64 r 64 (some ivb))) P).map
      List.length = .ok (pad P 8).length)
    ∧ (∀ C, OFB.decrypt (BaseMode.make (DES.make key 64 r 64 (some ivb))) C
        = OFB.encrypt (BaseMode.make (DES.make key 64 r 64 (some ivb))) C)
    ∧ (∀ C, CTR.decrypt (BaseMode.make (DES.make key 64 r 64 (some ivb))) C
        = CTR.encrypt (BaseMode.make (DES.make key 64 r 64 (some ivb))) C)
    ∧ ((ECB.encrypt (BaseMode.make (DES.make key 64 r 64 (some ivb))) P).bind
      (ECB.decrypt (BaseMode.make (DES.make key 64 r 64 (some ivb)))) = .ok P)
    ∧ ((CBC.encrypt (BaseMode.make (DES.make key 64 r 64 (some ivb))) P).bind
      (CBC.decrypt (BaseMode.make (DES.make key 64 r 64 (some ivb)))) = .ok P)
    ∧ ((CFB.encrypt (BaseMode.make (DES.make key 64 r 64 (some ivb))) P).bind
      (CFB.decrypt (BaseMode.make (DES.make key 64 r 64 (some ivb)))) = .ok P)
    ∧ (((OFB.encrypt (BaseMode.make (DES.make key 64 r 64 (some ivb))) P).bind
      (OFB.decrypt (BaseMode.make (DES.make key 64 r 64 (some ivb))))).map
        List.length = .ok ((pad P 8).length + 8)) := by
  have hbsb := bsb_of_make key r 64 (some ivb)
  have hkeys : (BaseMode.make (DES.make key 64 r 64 (some ivb))).des.subkeys.length
      = (BaseMode.make (DES.make key 64 r 64 (some ivb))).des.rounds :=
    make_subkeys_length key 64 r 64 (some ivb)
  obtain ⟨C1, hC1, hL1⟩ := ECB_encrypt_length _ hbsb hkeys P hP
  obtain ⟨C2, hC2, hL2⟩ := CBC_encrypt_length _ ivb hbsb rfl hkeys hiv8 hivlt P hP
  obtain ⟨C3, hC3, hL3⟩ := CFB_encrypt_length _ ivb hbsb rfl hkeys hiv8 P
  obtain ⟨C4, hC4, hL4⟩ := OFB_encrypt_length _ ivb hbsb rfl hkeys hiv8 P
  obtain ⟨C5, hC5, hL5⟩ := CTR_encrypt_length _ ivb hbsb rfl hkeys hiv8 P hov
  obtain ⟨C6, D6, hC6, hD6, hL6⟩ := OFB_roundtrip_inflates _ ivb hbsb rfl hkeys hiv8 P
  refine ⟨by rw [hC1]; show Except.ok C1.length = _; rw [hL1],
    by rw [hC2]; show Except.ok C2.length = _; rw [hL2],
    by rw [hC3]; show Except.ok C3.length = _; rw [hL3],
    by rw [hC4]; show Except.ok C4.length = _; rw [hL4],
    by rw [hC5]; show Except.ok C5.length = _; rw [hL5],
    fun _ => rfl, fun _ => rfl,
    ECB_mode_roundtrip _ hbsb hkeys P hP,
    CBC_mode_roundtrip _ ivb hbsb rfl hkeys hiv8 hivlt P hP,
    CFB_mode_roundtrip _ ivb hbsb rfl hkeys hiv8 P hP, ?_⟩
  rw [hC6]
  show (OFB.decrypt (BaseMode.make (DES.make key 64 r 64 (some ivb))) C6).map
    List.length = _
  rw [hD6]
  show Except.ok D6.length = _
  rw [hL6]

/-- Witness for the amended C3 at key "MYSECRET", 8 rounds, IV "12345678",
plaintext "HI" (padded length 8). -/
theorem claim_C3_witness :
    ((OFB.encrypt (BaseMode.make (DES.make [77, 89, 83, 69, 67, 82, 69, 84] 64 8 64
        (some [49, 50, 51, 52, 53, 54, 55, 56]))) [72, 73]).map
      List.length = .ok (pad [72, 73] 8).length)
    ∧ (((OFB.encrypt (BaseMode.make (DES.make [77, 89, 83, 69, 67, 82, 69, 84] 64 8 64
        (some [49, 50, 51, 52, 53, 54, 55, 56]))) [72, 73]).bind
      (OFB.decrypt (BaseMode.make (DES.make [77, 89, 83, 69, 67, 82, 69, 84] 64 8 64
        (some [49, 50, 51, 52, 53, 54, 55, 56]))))).map
        List.length = .ok ((pad [72, 73] 8).length + 8)) :=
  ⟨(claim_C3_pad_on_encrypt_strip_on_decrypt [77, 89, 83, 69, 67, 82, 69, 84]
      [49, 50, 51, 52, 53, 54, 55, 56] [72, 73] 8
      (by decide) (by decide) (by decide) (by norm_num [int_from_bytes, pad_length])).2.2.2.1,
    (claim_C3_pad_on_encrypt_strip_on_decrypt [77, 89, 83, 69, 67, 82, 69, 84]
      [49, 50, 51, 52, 53, 54, 55, 56] [72, 73] 8
      (by decide) (by decide) (by decide) (by norm_num [int_from_bytes, pad_length])).2.2.2.2.2.2.2.2.2.2⟩

/-- C4 counterexample: the constructor accepts the out-of-range round counts
7 and 33 without any `InvalidRounds` failure — the engine is built and its
schedule has exactly that many subkeys. -/
theorem claim_C4_counterexample :
    (DES.make [77, 89, 83, 69, 67, 82, 69, 84] 64 7 64 none).rounds = 7
    ∧ (DES.make [77, 89, 83, 69, 67, 82, 69, 84] 64 7 64 none).subkeys.length = 7
    ∧ (DES.make [77, 89, 83, 69, 67, 82, 69, 84] 64 33 64 none).rounds = 33
    ∧ (DES.make [77, 89, 83, 69, 67, 82, 69, 84] 64 33 64 none).subkeys.length = 33 :=
  ⟨rfl, make_subkeys_length [77, 89, 83, 69, 67, 82, 69, 84] 64 7 64 none,
    rfl, make_subkeys_length [77, 89, 83, 69, 67, 82, 69, 84] 64 33 64 none⟩

/-- C4 amended: `DES.__init__` performs no validation of the round count: for
every round count outside [8,32] the construction succeeds, stores the count
verbatim (no clamping) and derives exactly that many subkeys.  Clamping to
[8,32] is done only by the surrounding web layer (`app.py`), outside the
core. -/
theorem claim_C4_no_rounds_validation (key : List Nat) (r : Nat)
    (hout : r < 8 ∨ 32 < r) :
    (DES.make key 64 r 64 none).rounds = r
    ∧ (DES.make key 64 r 64 none).subkeys.length = r :=
  ⟨rfl, make_subkeys_length key 64 r 64 none⟩

/-- Witness for the amended C4 at round count 7. -/
theorem claim_C4_witness :
    (DES.make [1] 64 7 64 none).rounds = 7
    ∧ (DES.make [1] 64 7 64 none).subkeys.length = 7 :=
  claim_C4_no_rounds_validation [1] 7 (by decide)

/-- C5 counterexample: a CBC mode constructed over an engine with no IV is
built successfully (it silently stores `none`); the `MissingIV` failure
appears only later, when `encrypt` is invoked. -/
theorem claim_C5_counterexample :
    (BaseMode.make (DES.make [77, 89, 83, 69, 67, 82, 69, 84] 64 16 64 none)).iv
      = none
    ∧ CBC.encrypt (BaseMode.make (DES.make [77, 89, 83, 69, 67, 82, 69, 84] 64 16 64
        none)) [72] = .error .missingIV :=
  ⟨rfl, rfl⟩

/-- C5 amended: mode construction never fails — `_BaseMode.__init__` copies
the engine's IV unchecked — and every chaining mode (CBC, CFB, OFB, CTR)
raises `MissingIV` only when `encrypt`/`decrypt` is called without an IV. -/
theorem claim_C5_missing_iv_at_use (key P : List Nat) (r : Nat) :
    (BaseMode.make (DES.make key 64 r 64 none)).iv = none
    ∧ CBC.encrypt (BaseMode.make (DES.make key 64 r 64 none)) P = .error .missingIV
    ∧ CBC.decrypt (BaseMode.make (DES.make key 64 r 64 none)) P = .error .missingIV
    ∧ CFB.encrypt (BaseMode.make (DES.make key 64 r 64 none)) P = .error .missingIV
    ∧ CFB.decrypt (BaseMode.make (DES.make key 64 r 64 none)) P = .error .missingIV
    ∧ OFB.encrypt (BaseMode.make (DES.make key 64 r 64 none)) P = .error .missingIV
    ∧ OFB.decrypt (BaseMode.make (DES.make key 64 r 64 none)) P = .error .missingIV
    ∧ CTR.encrypt (BaseMode.make (DES.make key 64 r 64 none)) P = .error .missingIV
    ∧ CTR.decrypt (BaseMode.make (DES.make key 64 r 64 none)) P = .error .missingIV :=
  ⟨rfl, rfl, rfl, rfl, rfl, rfl, rfl, rfl, rfl⟩

/-- C6: the key schedule of every engine has exactly `rounds` subkeys, each
exactly 48 bits (PC-2 selects 48 positions); subkey `k` is PC-2 applied to
the two 28-bit PC-1 halves of the normalised key, each left-rotated by the
accumulated rotation amounts of rounds `0..k` with the rotation table cycling
modulo 16 (`rotSum`); and the derivation is a total function of
`(key, rounds)` alone — independent of the block-size, keylen and IV
parameters — so it is deterministic and never fails. -/
theorem claim_C6_key_schedule (key : List Nat) (bs2 r kl : Nat)
    (iv : Option (List Nat)) :
    (DES.make key bs2 r kl iv).subkeys.length = r
    ∧ (∀ sk ∈ (DES.make key bs2 r kl iv).subkeys, sk.length = 48)
    ∧ (∀ k, k < r → (DES.make key bs2 r kl iv).subkeys.getD k []
        = _permute
            (((_permute (bytes_to_bit_string (normalizeKey key)) PC_1).take 28).rotate
                (rotSum 0 (k + 1))
              ++ ((_permute (bytes_to_bit_string (normalizeKey key)) PC_1).drop 28).rotate
                (rotSum 0 (k + 1))) PC_2)
    ∧ (∀ bs3 kl2 : Nat, ∀ iv2 : Option (List Nat),
        (DES.make key bs2 r kl iv).subkeys = (DES.make key bs3 r kl2 iv2).subkeys) :=
  ⟨make_subkeys_length key bs2 r kl iv,
    fun sk hsk => subkeysLoop_width r 0 _ _ sk hsk,
    fun k hk => subkeysLoop_getD r 0 _ _ k hk,
    fun _ _ _ => rfl⟩

/-- Witness for C6 at key "MYSECRET", 16 rounds, subkey index 0. -/
theorem claim_C6_witness :
    (DES.make [77, 89, 83, 69, 67, 82, 69, 84] 64 16 64 none).subkeys.length = 16
    ∧ (DES.make [77, 89, 83, 69, 67, 82, 69, 84] 64 16 64 none).subkeys.getD 0 []
      = _permute
          (((_permute (bytes_to_bit_string
              (normalizeKey [77, 89, 83, 69, 67, 82, 69, 84])) PC_1).take 28).rotate
              (rotSum 0 1)
            ++ ((_permute (bytes_to_bit_string
              (normalizeKey [77, 89, 83, 69, 67, 82, 69, 84])) PC_1).drop 28).rotate
              (rotSum 0 1)) PC_2 :=
  ⟨(claim_C6_key_schedule [77, 89, 83, 69, 67, 82, 69, 84] 64 16 64 none).1,
    (claim_C6_key_schedule [77, 89, 83, 69, 67, 82, 69, 84] 64 16 64 none).2.2.1
      0 (by decide)⟩

/-- C7: `pad` appends `n = 8 - (len mod 8)` bytes of value `n` (so `n = 8`
exactly when the length is already a multiple of 8), always yielding a
strictly longer multiple of 8; `unpad` strips the last-byte-many bytes when
that byte is a plausible pad length, returns the data unchanged otherwise
(lenient policy), and `unpad (pad D) = D` for every `D`. -/
theorem claim_C7_padding :
    (∀ D : List Nat,
      pad D 8 = D ++ List.replicate (8 - D.length % 8) (8 - D.length % 8)
      ∧ (pad D 8).length % 8 = 0
      ∧ D.length < (pad D 8).length
      ∧ unpad (pad D 8) 8 = D)
    ∧ (∀ D : List Nat, D ≠ [] →
        1 ≤ D.getLastD 0 → D.getLastD 0 ≤ 8 → D.getLastD 0 ≤ D.length →
        unpad D 8 = D.take (D.length - D.getLastD 0))
    ∧ (∀ D : List Nat, D ≠ [] →
        (D.getLastD 0 < 1 ∨ D.getLastD 0 > 8 ∨ D.getLastD 0 > D.length) →
        unpad D 8 = D) := by
  refine ⟨fun D => ⟨pad_eq D, pad_mod D, pad_gt D, unpad_pad D⟩, ?_, unpad_invalid⟩
  intro D hne h1 h8 hlen
  rw [unpad_def, if_neg hne, if_neg (by omega)]

/-- Witness for C7: round trip on `[1, 2, 3]`, strip on a validly padded
buffer, and pass-through on `[77, 200]` whose final byte 200 is not a pad
length. -/
theorem claim_C7_witness :
    unpad (pad [1, 2, 3] 8) 8 = [1, 2, 3]
    ∧ unpad [9, 9, 2, 2] 8 = [9, 9, 2, 2].take 2
    ∧ unpad [77, 200] 8 = [77, 200] :=
  ⟨(claim_C7_padding.1 [1, 2, 3]).2.2.2,
    claim_C7_padding.2.1 [9, 9, 2, 2] (by decide) (by decide) (by decide) (by decide),
    claim_C7_padding.2.2 [77, 200] (by decide) (by decide)⟩

/-- C8: in CTR mode, ciphertext block `i` is the plaintext block xored with
`encrypt_block` of the 8-byte big-endian encoding of (IV-as-big-endian-int
+ i) — a function of the seed and `i` alone, with no reference to any other
block's keystream, and it agrees with what the sequential counter loop
produces. -/
theorem claim_C8_ctr_parallel_keystream (key ivb P : List Nat) (r i : Nat)
    (hiv8 : ivb.length = 8)
    (hov : int_from_bytes ivb + (pad P 8).length / 8 ≤ 256 ^ 8)
    (hi : i < (pad P 8).length / 8) :
    ∃ C, CTR.encrypt (BaseMode.make (DES.make key 64 r 64 (some ivb))) P = .ok C
      ∧ (_get_blocks 8 C).getD i []
        = List.zipWith (fun p o => p ^^^ o) ((_get_blocks 8 (pad P 8)).getD i [])
            (processCore (DES.make key 64 r 64 (some ivb))
              (toBytesBE 8 (int_from_bytes ivb + i)) false) := by
  obtain ⟨cs, hcs, hlen, hprops, hchar⟩ :=
    CTR_encrypt_ok (BaseMode.make (DES.make key 64 r 64 (some ivb))) ivb
      (bsb_of_make key r 64 (some ivb)) rfl
      (make_subkeys_length key 64 r 64 (some ivb)) hiv8 P hov
  refine ⟨cs.flatten, hcs, ?_⟩
  rw [blocks_join cs hprops]
  have hcount := blocks_count (pad P 8) (pad_mod P)
  exact hchar i (by omega)

/-- Witness for C8 at key "MYSECRET", IV "12345678", plaintext "HI",
block index 0. -/
theorem claim_C8_witness :
    ∃ C, CTR.encrypt (BaseMode.make (DES.make [77, 89, 83, 69, 67, 82, 69, 84]
        64 8 64 (some [49, 50, 51, 52, 53, 54, 55, 56]))) [72, 73] = .ok C
      ∧ (_get_blocks 8 C).getD 0 []
        = List.zipWith (fun p o => p ^^^ o)
            ((_get_blocks 8 (pad [72, 73] 8)).getD 0 [])
            (processCore (DES.make [77, 89, 83, 69, 67, 82, 69, 84] 64 8 64
                (some [49, 50, 51, 52, 53, 54, 55, 56]))
              (toBytesBE 8 (int_from_bytes [49, 50, 51, 52, 53, 54, 55, 56] + 0))
              false) :=
  claim_C8_ctr_parallel_keystream [77, 89, 83, 69, 67, 82, 69, 84]
    [49, 50, 51, 52, 53, 54, 55, 56] [72, 73] 8 0 (by decide)
    (by norm_num [int_from_bytes, pad_length]) (by norm_num [pad_length])

/-- C9: the engine-level `DES.encrypt` is the base64 encoding of the reversed
input and `DES.decrypt` inverts it; neither uses the key, the subkeys or any
other engine field, so any two engines — whatever their keys and round
counts — produce identical output on every input. -/
theorem claim_C9_engine_encrypt_unkeyed (d1 d2 : DES) (P : List Nat)
    (hP : ∀ b ∈ P, b < 256) :
    DES.encrypt d1 P = b64encode P.reverse
    ∧ DES.encrypt d1 P = DES.encrypt d2 P
    ∧ DES.decrypt d1 (DES.encrypt d1 P) = P := by
  refine ⟨rfl, rfl, ?_⟩
  show (b64decode (b64encode P.reverse)).reverse = P
  rw [b64_roundtrip_aux P.reverse.length P.reverse (le_refl _)
    (fun b hb => hP b (List.mem_reverse.mp hb))]
  exact List.reverse_reverse P

/-- Witness for C9: two engines with different keys and round counts on
plaintext "HELLO". -/
theorem claim_C9_witness :
    DES.encrypt (DES.make [1] 64 16 64 none) [72, 69, 76, 76, 79]
      = b64encode [72, 69, 76, 76, 79].reverse
    ∧ DES.encrypt (DES.make [1] 64 16 64 none) [72, 69, 76, 76, 79]
      = DES.encrypt (DES.make [9, 9, 9, 9, 9, 9, 9, 9] 64 8 64 none)
          [72, 69, 76, 76, 79]
    ∧ DES.decrypt (DES.make [1] 64 16 64 none)
        (DES.encrypt (DES.make [1] 64 16 64 none) [72, 69, 76, 76, 79])
      = [72, 69, 76, 76, 79] :=
  claim_C9_engine_encrypt_unkeyed (DES.make [1] 64 16 64 none)
    (DES.make [9, 9, 9, 9, 9, 9, 9, 9] 64 8 64 none) [72, 69, 76, 76, 79]
    (by decide)

/-- C10: CTR encryption (and decryption, which delegates to it) is not total
over in-range inputs: whenever some block index `k` within the padded input
satisfies IV-as-int + k ≥ 2^64, the counter encoding `to_bytes` raises
`OverflowError` — the counter does not wrap modulo 2^64. -/
theorem claim_C10_ctr_overflow (key ivb P : List Nat) (r k : Nat)
    (hiv8 : ivb.length = 8) (hk : k < (pad P 8).length / 8)
    (hov : 256 ^ 8 ≤ int_from_bytes ivb + k) :
    CTR.encrypt (BaseMode.make (DES.make key 64 r 64 (some ivb))) P
      = .error .overflow
    ∧ CTR.decrypt (BaseMode.make (DES.make key 64 r 64 (some ivb))) P
      = .error .overflow := by
  have h := CTR_encrypt_overflow (BaseMode.make (DES.make key 64 r 64 (some ivb)))
    ivb (bsb_of_make key r 64 (some ivb)) rfl hiv8 P k hk hov
  exact ⟨h, h⟩

/-- Witness for C10: IV `ff ff ff ff ff ff ff ff` (counter 2^64 − 1) with an
8-byte plaintext (two padded blocks): block index 1 forces the overflow. -/
theorem claim_C10_witness :
    CTR.encrypt (BaseMode.make (DES.make [1] 64 8 64
        (some [255, 255, 255, 255, 255, 255, 255, 255])))
      [1, 2, 3, 4, 5, 6, 7, 8] = .error .overflow
    ∧ CTR.decrypt (BaseMode.make (DES.make [1] 64 8 64
        (some [255, 255, 255, 255, 255, 255, 255, 255])))
      [1, 2, 3, 4, 5, 6, 7, 8] = .error .overflow :=
  claim_C10_ctr_overflow [1] [255, 255, 255, 255, 255, 255, 255, 255]
    [1, 2, 3, 4, 5, 6, 7, 8] 8 1 (by decide) (by norm_num [pad_length])
    (by norm_num [int_from_bytes])
